/-
Verification of the orphan-transaction pool (txorphanage.cpp) and the spork
manager (spork.cpp) of the eltugabtc/Bitcoin repository.

The C++ data structures are shallowly embedded: std::map becomes an
association list with unique keys, std::set becomes a duplicate-free list,
iterators stored in indices become the map keys they point to (wtxids).
Machine integers are modelled as Nat / Int; times are passed explicitly
where the source calls a clock.
-/
import Mathlib

/-! ## Association-list primitives

`std::map` / `std::unordered_map` are embedded as association lists whose
key uniqueness is carried as an invariant where needed. -/

/-- Lookup by key, first match wins (matches `map::find`). -/
def alookup {α β : Type} [DecidableEq α] (k : α) : List (α × β) → Option β
  | [] => none
  | p :: ps => if p.1 = k then some p.2 else alookup k ps

/-- Replace the value stored at key `k` (no-op on absent key),
matching assignment through a found iterator. -/
def aupdate {α β : Type} [DecidableEq α] (k : α) (v : β) (m : List (α × β)) : List (α × β) :=
  m.map (fun p => if p.1 = k then (k, v) else p)

/-- Apply `f` to the value stored at key `k` (no-op on absent key). -/
def amodify {α β : Type} [DecidableEq α] (k : α) (f : β → β) (m : List (α × β)) : List (α × β) :=
  m.map (fun p => if p.1 = k then (p.1, f p.2) else p)

/-- Remove the entry with key `k` (matches `map::erase` by key). -/
def aerase {α β : Type} [DecidableEq α] (k : α) (m : List (α × β)) : List (α × β) :=
  m.filter (fun p => decide (p.1 ≠ k))

/-- `m[k] = v` on a C++ map: overwrite if present, append if absent. -/
def ainsert {α β : Type} [DecidableEq α] (k : α) (v : β) (m : List (α × β)) : List (α × β) :=
  match alookup k m with
  | some _ => aupdate k v m
  | none => m ++ [(k, v)]

/-- `std::set::insert`: append if not already present. -/
def insertSet {α : Type} [DecidableEq α] (x : α) (l : List α) : List α :=
  if x ∈ l then l else l ++ [x]

theorem alookup_append {α β : Type} [DecidableEq α] (k : α) (m₁ m₂ : List (α × β)) :
    alookup k (m₁ ++ m₂) = ((alookup k m₁).rec (alookup k m₂) (fun v => some v)) := by
  induction m₁ with
  | nil => simp [alookup]
  | cons p ps ih =>
      by_cases h : p.1 = k <;> simp [alookup, h, ih]

theorem alookup_append_some {α β : Type} [DecidableEq α] (k : α) (m₁ m₂ : List (α × β)) (v : β)
    (h : alookup k m₁ = some v) : alookup k (m₁ ++ m₂) = some v := by
  rw [alookup_append, h]

theorem alookup_append_none {α β : Type} [DecidableEq α] (k : α) (m₁ m₂ : List (α × β))
    (h : alookup k m₁ = none) : alookup k (m₁ ++ m₂) = alookup k m₂ := by
  rw [alookup_append, h]

theorem alookup_aupdate_self {α β : Type} [DecidableEq α] (k : α) (v : β) (m : List (α × β)) :
    alookup k (aupdate k v m) = (alookup k m).map (fun _ => v) := by
  induction m with
  | nil => simp [alookup, aupdate]
  | cons p ps ih =>
      by_cases h : p.1 = k <;> simp [alookup, aupdate, h] <;> simpa [aupdate] using ih

theorem alookup_aupdate_ne {α β : Type} [DecidableEq α] (k k' : α) (v : β) (m : List (α × β))
    (h : k' ≠ k) : alookup k' (aupdate k v m) = alookup k' m := by
  induction m with
  | nil => rfl
  | cons p ps ih =>
      simp only [aupdate, List.map_cons, alookup]
      by_cases hp : p.1 = k
      · rw [if_pos hp,
          if_neg (show ¬ (k, v).1 = k' from fun hh => h hh.symm),
          if_neg (show ¬ p.1 = k' from by rw [hp]; exact fun hh => h hh.symm)]
        simpa [aupdate] using ih
      · rw [if_neg hp]
        by_cases hp' : p.1 = k'
        · rw [if_pos hp', if_pos hp']
        · rw [if_neg hp', if_neg hp']
          simpa [aupdate] using ih

theorem alookup_amodify_self {α β : Type} [DecidableEq α] (k : α) (f : β → β) (m : List (α × β)) :
    alookup k (amodify k f m) = (alookup k m).map f := by
  induction m with
  | nil => simp [alookup, amodify]
  | cons p ps ih =>
      by_cases h : p.1 = k <;> simp [alookup, amodify, h] <;> simpa [amodify] using ih

theorem alookup_amodify_ne {α β : Type} [DecidableEq α] (k k' : α) (f : β → β) (m : List (α × β))
    (h : k' ≠ k) : alookup k' (amodify k f m) = alookup k' m := by
  induction m with
  | nil => rfl
  | cons p ps ih =>
      simp only [amodify, List.map_cons, alookup]
      by_cases hp : p.1 = k
      · rw [if_pos hp,
          if_neg (show ¬ (p.1, f p.2).1 = k' from by rw [hp]; exact fun hh => h hh.symm),
          if_neg (show ¬ p.1 = k' from by rw [hp]; exact fun hh => h hh.symm)]
        simpa [amodify] using ih
      · rw [if_neg hp]
        by_cases hp' : p.1 = k'
        · rw [if_pos hp', if_pos hp']
        · rw [if_neg hp', if_neg hp']
          simpa [amodify] using ih

theorem alookup_aerase_self {α β : Type} [DecidableEq α] (k : α) (m : List (α × β)) :
    alookup k (aerase k m) = none := by
  induction m with
  | nil => simp [alookup, aerase]
  | cons p ps ih =>
      by_cases h : p.1 = k <;> simp [alookup, aerase, h] <;> simpa [aerase] using ih

theorem alookup_aerase_ne {α β : Type} [DecidableEq α] (k k' : α) (m : List (α × β))
    (h : k' ≠ k) : alookup k' (aerase k m) = alookup k' m := by
  induction m with
  | nil => rfl
  | cons p ps ih =>
      simp only [aerase, List.filter_cons]
      by_cases hp : p.1 = k
      · rw [if_neg (by simp [hp])]
        have hpk : ¬ p.1 = k' := by rw [hp]; exact fun hh => h hh.symm
        simp only [alookup, if_neg hpk]
        simpa [aerase] using ih
      · rw [if_pos (by simp [hp])]
        simp only [alookup]
        by_cases hp' : p.1 = k'
        · rw [if_pos hp', if_pos hp']
        · rw [if_neg hp', if_neg hp']
          simpa [aerase] using ih

theorem alookup_ainsert_self {α β : Type} [DecidableEq α] (k : α) (v : β) (m : List (α × β)) :
    alookup k (ainsert k v m) = some v := by
  unfold ainsert
  cases h : alookup k m with
  | some w => simp [alookup_aupdate_self, h]
  | none => rw [alookup_append_none k m _ h]; simp [alookup]

theorem alookup_ainsert_ne {α β : Type} [DecidableEq α] (k k' : α) (v : β) (m : List (α × β))
    (h : k' ≠ k) : alookup k' (ainsert k v m) = alookup k' m := by
  unfold ainsert
  cases hm : alookup k m with
  | some w => simp [alookup_aupdate_ne _ _ _ _ h]
  | none =>
      rw [alookup_append]
      cases hk : alookup k' m with
      | some w => simp
      | none => simp [alookup, Ne.symm h]

theorem alookup_some_mem {α β : Type} [DecidableEq α] {k : α} {v : β} {m : List (α × β)}
    (h : alookup k m = some v) : (k, v) ∈ m := by
  induction m with
  | nil => simp [alookup] at h
  | cons p ps ih =>
      by_cases hp : p.1 = k
      · simp [alookup, hp] at h
        subst hp h
        simp
      · simp [alookup, hp] at h
        exact List.mem_cons_of_mem _ (ih h)

theorem alookup_isSome_iff {α β : Type} [DecidableEq α] (k : α) (m : List (α × β)) :
    (alookup k m).isSome ↔ k ∈ m.map Prod.fst := by
  induction m with
  | nil => simp [alookup]
  | cons p ps ih =>
      by_cases hp : p.1 = k <;> simp [alookup, hp, ih] <;> tauto

theorem alookup_eq_none_iff {α β : Type} [DecidableEq α] (k : α) (m : List (α × β)) :
    alookup k m = none ↔ k ∉ m.map Prod.fst := by
  rw [← alookup_isSome_iff]
  cases alookup k m <;> simp

theorem mem_alookup_of_nodup {α β : Type} [DecidableEq α] {k : α} {v : β} {m : List (α × β)}
    (hnd : (m.map Prod.fst).Nodup) (h : (k, v) ∈ m) : alookup k m = some v := by
  induction m with
  | nil => simp at h
  | cons p ps ih =>
      rw [List.map_cons, List.nodup_cons] at hnd
      rcases List.mem_cons.mp h with he | hm
      · rw [← he]
        simp [alookup]
      · have hk : k ∈ ps.map Prod.fst := List.mem_map_of_mem Prod.fst hm
        have hp : ¬ p.1 = k := fun heq => hnd.1 (heq ▸ hk)
        simp only [alookup, if_neg hp]
        exact ih hnd.2 hm

theorem keys_aupdate {α β : Type} [DecidableEq α] (k : α) (v : β) (m : List (α × β)) :
    (aupdate k v m).map Prod.fst = m.map Prod.fst := by
  induction m with
  | nil => rfl
  | cons p ps ih =>
      by_cases h : p.1 = k <;> simp [aupdate, h] <;> simpa [aupdate] using ih

theorem keys_amodify {α β : Type} [DecidableEq α] (k : α) (f : β → β) (m : List (α × β)) :
    (amodify k f m).map Prod.fst = m.map Prod.fst := by
  induction m with
  | nil => rfl
  | cons p ps ih =>
      by_cases h : p.1 = k <;> simp [amodify, h] <;> simpa [amodify] using ih

theorem keys_aerase_sublist {α β : Type} [DecidableEq α] (k : α) (m : List (α × β)) :
    ((aerase k m).map Prod.fst).Sublist (m.map Prod.fst) :=
  List.Sublist.map Prod.fst (List.filter_sublist m)

theorem length_aupdate {α β : Type} [DecidableEq α] (k : α) (v : β) (m : List (α × β)) :
    (aupdate k v m).length = m.length := by
  simp [aupdate]

theorem length_amodify {α β : Type} [DecidableEq α] (k : α) (f : β → β) (m : List (α × β)) :
    (amodify k f m).length = m.length := by
  simp [amodify]

theorem length_aerase_of_mem {α β : Type} [DecidableEq α] {k : α} {m : List (α × β)}
    (hnd : (m.map Prod.fst).Nodup) (h : k ∈ m.map Prod.fst) :
    (aerase k m).length + 1 = m.length := by
  induction m with
  | nil => simp at h
  | cons p ps ih =>
      rw [List.map_cons, List.nodup_cons] at hnd
      rw [List.map_cons, List.mem_cons] at h
      by_cases hp : p.1 = k
      · have h1 : aerase k (p :: ps) = aerase k ps := by simp [aerase, hp]
        have hnone : k ∉ ps.map Prod.fst := hp ▸ hnd.1
        have h2 : aerase k ps = ps := by
          apply List.filter_eq_self.mpr
          intro q hq
          have : q.1 ≠ k := fun heq => hnone (heq ▸ List.mem_map_of_mem Prod.fst hq)
          simpa using this
        rw [h1, h2]
        simp
      · have h1 : aerase k (p :: ps) = p :: aerase k ps := by simp [aerase, hp]
        rw [h1]
        rcases h with h | h
        · exact absurd h.symm hp
        · have h2 := ih hnd.2 h
          simp only [List.length_cons]
          omega

theorem mem_aerase {α β : Type} [DecidableEq α] {k : α} {q : α × β} {m : List (α × β)} :
    q ∈ aerase k m ↔ q ∈ m ∧ q.1 ≠ k := by
  simp [aerase]

theorem mem_amodify {α β : Type} [DecidableEq α] {k : α} {f : β → β} {q : α × β}
    {m : List (α × β)} (h : q ∈ amodify k f m) :
    ∃ p, p ∈ m ∧ ((p.1 ≠ k ∧ q = p) ∨ (p.1 = k ∧ q = (p.1, f p.2))) := by
  simp only [amodify, List.mem_map] at h
  obtain ⟨p, hp, he⟩ := h
  refine ⟨p, hp, ?_⟩
  by_cases hk : p.1 = k
  · right
    refine ⟨hk, ?_⟩
    rw [if_pos hk] at he
    exact he.symm
  · left
    refine ⟨hk, ?_⟩
    rw [if_neg hk] at he
    exact he.symm

theorem mem_insertSet {α : Type} [DecidableEq α] {x y : α} {l : List α} :
    y ∈ insertSet x l ↔ y ∈ l ∨ y = x := by
  unfold insertSet
  by_cases h : x ∈ l
  · rw [if_pos h]
    constructor
    · exact Or.inl
    · rintro (hy | rfl)
      · exact hy
      · exact h
  · rw [if_neg h]
    simp

theorem nodup_insertSet {α : Type} [DecidableEq α] {x : α} {l : List α} (h : l.Nodup) :
    (insertSet x l).Nodup := by
  unfold insertSet
  by_cases hx : x ∈ l
  · rw [if_pos hx]
    exact h
  · rw [if_neg hx]
    exact List.Nodup.append h (List.nodup_singleton x)
      (fun a hal hax => hx ((List.mem_singleton.mp hax) ▸ hal))

/-! ## Orphanage data model (txorphanage.cpp)

Identifiers (`Txid`, `Wtxid`, `NodeId`) are modelled as `Nat`; an outpoint
is a `(txid, output index)` pair.  The `std::map` iterators stored in
`m_orphan_list` and `m_outpoint_to_orphan_it` are replaced by the wtxid keys
they dereference to. -/

/-- An outpoint `(txid, n)` naming one coin (COutPoint). -/
structure OutPoint where
  txid : Nat
  n : Nat
deriving DecidableEq

/-- The transaction value the orphanage consumes: an opaque body with
`txid`, `wtxid`, inputs (their prevouts), an output count, and a weight. -/
structure Tx where
  txid : Nat
  wtxid : Nat
  vin : List OutPoint
  vout : Nat
  weight : Nat
deriving DecidableEq

/-- One orphanage entry (struct OrphanTx). -/
structure OrphanTx where
  tx : Tx
  announcers : List Nat
  nTimeExpire : Nat
  list_pos : Nat
  parent_txids : List Nat
deriving DecidableEq

/-- Orphanage state (class TxOrphanage). -/
structure OrphState where
  m_orphans : List (Nat × OrphanTx)
  m_orphan_list : List Nat
  m_outpoint_to_orphan_it : List (OutPoint × List Nat)
  m_peer_work_set : List (Nat × List Nat)
  m_next_sweep : Nat
deriving DecidableEq

/-- Modelled from the spec: `ORPHAN_TX_EXPIRE_TIME = 20 minutes` — the
constant lives in txorphanage.h, which is not under src/. Seconds. -/
def ORPHAN_TX_EXPIRE_TIME : Nat := 20 * 60

/-- Modelled from the spec: `ORPHAN_TX_EXPIRE_INTERVAL = 5 minutes` — the
constant lives in txorphanage.h, which is not under src/. Seconds. -/
def ORPHAN_TX_EXPIRE_INTERVAL : Nat := 5 * 60

/-- Modelled from the spec: `MAX_STANDARD_TX_WEIGHT` is inherited from
policy (policy.h, not under src/); its Bitcoin value is 400000. -/
def MAX_STANDARD_TX_WEIGHT : Nat := 400000

/-- The empty orphanage. -/
def emptyOrph : OrphState :=
  { m_orphans := [], m_orphan_list := [], m_outpoint_to_orphan_it := [],
    m_peer_work_set := [], m_next_sweep := 0 }

/-- `m_outpoint_to_orphan_it[txin.prevout].insert(handle)` — insert a wtxid
into the set stored under an outpoint, creating the key if absent. -/
def outInsert (op : OutPoint) (w : Nat) (m : List (OutPoint × List Nat)) :
    List (OutPoint × List Nat) :=
  match alookup op m with
  | some ws => aupdate op (insertSet w ws) m
  | none => m ++ [(op, [w])]

/-- Erase a wtxid from the set stored under an outpoint, dropping the key
when the set becomes empty (the EraseTx per-input bookkeeping). -/
def outErase (op : OutPoint) (w : Nat) (m : List (OutPoint × List Nat)) :
    List (OutPoint × List Nat) :=
  match alookup op m with
  | some ws =>
      if ws.erase w = [] then aerase op m else aupdate op (ws.erase w) m
  | none => m

/-- The `announcers.insert(peer)` step of AddTx / AddAnnouncer. -/
def withAnnouncer (peer : Nat) (e : OrphanTx) : OrphanTx :=
  { e with announcers := insertSet peer e.announcers }

/-- The freshly created entry of AddTx:
`OrphanTx{tx, {peer}, now + ORPHAN_TX_EXPIRE_TIME, m_orphan_list.size(), parent_txids}`. -/
def freshEntry (tx : Tx) (peer : Nat) (parents : List Nat) (now : Nat) (pos : Nat) : OrphanTx :=
  { tx := tx, announcers := [peer], nTimeExpire := now + ORPHAN_TX_EXPIRE_TIME,
    list_pos := pos, parent_txids := parents }

/-- TxOrphanage::AddTx.  `now` stands for `Now<NodeSeconds>()`. -/
def addTx (tx : Tx) (peer : Nat) (parents : List Nat) (now : Nat) (s : OrphState) :
    Bool × OrphState :=
  match alookup tx.wtxid s.m_orphans with
  | some e =>
      (false, { s with m_orphans := aupdate tx.wtxid (withAnnouncer peer e) s.m_orphans })
  | none =>
      if tx.weight > MAX_STANDARD_TX_WEIGHT then
        (false, s)
      else
        (true, { s with
          m_orphans := s.m_orphans ++
            [(tx.wtxid, freshEntry tx peer parents now s.m_orphan_list.length)],
          m_orphan_list := s.m_orphan_list ++ [tx.wtxid],
          m_outpoint_to_orphan_it :=
            tx.vin.foldl (fun m op => outInsert op tx.wtxid m) s.m_outpoint_to_orphan_it })

/-- The `it_last->second.list_pos = old_pos` fixup of EraseTx. -/
def setPos (pos : Nat) (e2 : OrphanTx) : OrphanTx :=
  { e2 with list_pos := pos }

/-- TxOrphanage::EraseTx: detach from the outpoint index, swap-remove from
the dense list (moving the tail entry into the vacated slot and fixing its
`list_pos`), then erase from the map.  Returns `1` iff something was erased. -/
def eraseTx (w : Nat) (s : OrphState) : Nat × OrphState :=
  match alookup w s.m_orphans with
  | none => (0, s)
  | some e =>
      let outs2 := e.tx.vin.foldl (fun m op => outErase op w m) s.m_outpoint_to_orphan_it
      let oldPos := e.list_pos
      let lst := s.m_orphan_list
      let moved :
          List (Nat × OrphanTx) × List Nat :=
        if oldPos + 1 ≠ lst.length then
          match lst.getLast? with
          | some lastW =>
              (amodify lastW (setPos oldPos) s.m_orphans, lst.set oldPos lastW)
          | none => (s.m_orphans, lst)
        else
          (s.m_orphans, lst)
      (1, { s with
        m_orphans := aerase w moved.1,
        m_orphan_list := moved.2.dropLast,
        m_outpoint_to_orphan_it := outs2 })

/-- One iteration body of the expiry sweep in TxOrphanage::LimitOrphans:
expired entries are appended to the output and erased, surviving entries
lower the running minimum expiry. -/
def sweepStep (now : Nat) (acc : List Nat × Nat × OrphState) (p : Nat × OrphanTx) :
    List Nat × Nat × OrphState :=
  if p.2.nTimeExpire ≤ now then
    (acc.1 ++ [p.1], acc.2.1, (eraseTx p.1 acc.2.2).2)
  else
    (acc.1, min p.2.nTimeExpire acc.2.1, acc.2.2)

/-- The random-eviction loop of TxOrphanage::LimitOrphans.  The
caller-supplied RNG is a stream of raw draws; `randrange(n)` becomes
`head % n`.  The fuel is an upper bound on the iterations the C++ `while`
loop can make (each pass erases one live entry). -/
def evictLoop (fuel : Nat) (rng : List Nat) (maxOrphans : Nat) (s : OrphState) :
    List Nat × OrphState :=
  match fuel with
  | 0 => ([], s)
  | fuel' + 1 =>
      if s.m_orphans.length > maxOrphans then
        match s.m_orphan_list[rng.headD 0 % s.m_orphan_list.length]? with
        | some w =>
            let rest := evictLoop fuel' rng.tail maxOrphans (eraseTx w s).2
            (w :: rest.1, rest.2)
        | none => ([], s)
      else
        ([], s)

/-- The expiry-sweep phase of TxOrphanage::LimitOrphans: runs only when
`m_next_sweep ≤ now`; erases every expired entry, recording its wtxid, and
reschedules `m_next_sweep` from the running minimum that starts at
`now + ORPHAN_TX_EXPIRE_TIME - ORPHAN_TX_EXPIRE_INTERVAL`. -/
def sweepPhase (now : Nat) (s : OrphState) : List Nat × OrphState :=
  if s.m_next_sweep ≤ now then
    let res := s.m_orphans.foldl (sweepStep now)
      ([], now + ORPHAN_TX_EXPIRE_TIME - ORPHAN_TX_EXPIRE_INTERVAL, s)
    (res.1, { res.2.2 with m_next_sweep := res.2.1 + ORPHAN_TX_EXPIRE_INTERVAL })
  else
    ([], s)

/-- TxOrphanage::LimitOrphans.  `now` stands for `Now<NodeSeconds>()`.
The RNG fuel bound `m_orphans.length` is an upper bound on the iterations
of the C++ `while` loop, which erases one live entry per pass. -/
def limitOrphans (maxOrphans : Nat) (rng : List Nat) (now : Nat) (s : OrphState) :
    List Nat × OrphState :=
  let swept := sweepPhase now s
  let evicted := evictLoop swept.2.m_orphans.length rng maxOrphans swept.2
  (swept.1 ++ evicted.1, evicted.2)

/-- The `work_set_it->second.erase(wtxid)` step of EraseOrphanOfPeer. -/
def worksetErase (w : Nat) (peer : Nat) (pws : List (Nat × List Nat)) :
    List (Nat × List Nat) :=
  match alookup peer pws with
  | some ws => aupdate peer (ws.erase w) pws
  | none => pws

/-- The `announcers.erase(peer)` step of EraseOrphanOfPeer / EraseForPeer. -/
def dropAnnouncer (peer : Nat) (e : OrphanTx) : OrphanTx :=
  { e with announcers := e.announcers.erase peer }

/-- The state after the unconditional `work_set_it->second.erase(wtxid)`
of EraseOrphanOfPeer. -/
def worksetState (w : Nat) (peer : Nat) (s : OrphState) : OrphState :=
  { s with m_peer_work_set := worksetErase w peer s.m_peer_work_set }

/-- TxOrphanage::EraseOrphanOfPeer. -/
def eraseOrphanOfPeer (w : Nat) (peer : Nat) (s : OrphState) : OrphState :=
  match alookup w s.m_orphans with
  | none => s
  | some e =>
      if peer ∈ e.announcers then
        if e.announcers.length = 1 then
          (eraseTx w (worksetState w peer s)).2
        else
          { worksetState w peer s with
            m_orphans := aupdate w (dropAnnouncer peer e) s.m_orphans }
      else
        worksetState w peer s

/-- All prevouts spent by the transactions of a block, in block order. -/
def blockInputs (block : List Tx) : List OutPoint :=
  block.flatMap (fun tx => tx.vin)

/-- TxOrphanage::EraseForBlock: gather, over every input of every block
transaction, the wtxids in the outpoint index under that prevout; then
erase each gathered wtxid (idempotently). -/
def eraseForBlock (block : List Tx) (s : OrphState) : List Nat × OrphState :=
  let vOrphanErase :=
    (blockInputs block).flatMap
      (fun op => ((alookup op s.m_outpoint_to_orphan_it).getD []))
  (vOrphanErase, vOrphanErase.foldl (fun st w => (eraseTx w st).2) s)

/-! ## Orphanage invariant -/

/-- `w` is recorded under `op` in the outpoint index. -/
def lookupMem (op : OutPoint) (w : Nat) (m : List (OutPoint × List Nat)) : Prop :=
  ∃ ws, alookup op m = some ws ∧ w ∈ ws

/-- The live entry `w` spends `op`. -/
def liveSpend (w : Nat) (op : OutPoint) (s : OrphState) : Prop :=
  ∃ e, alookup w s.m_orphans = some e ∧ op ∈ e.tx.vin

/-- Well-formedness of the three coupled indices of the orphanage
(§3.1 invariants 1–3 of the spec, plus the bookkeeping facts the
implementation relies on). -/
structure Wf (s : OrphState) : Prop where
  keysNodup : (s.m_orphans.map Prod.fst).Nodup
  keyMatch : ∀ p ∈ s.m_orphans, p.2.tx.wtxid = p.1
  lenEq : s.m_orphan_list.length = s.m_orphans.length
  listNodup : s.m_orphan_list.Nodup
  posOk : ∀ p ∈ s.m_orphans, s.m_orphan_list[p.2.list_pos]? = some p.1
  listKeys : ∀ w ∈ s.m_orphan_list, w ∈ s.m_orphans.map Prod.fst
  outKeysNodup : (s.m_outpoint_to_orphan_it.map Prod.fst).Nodup
  outValsNodup : ∀ q ∈ s.m_outpoint_to_orphan_it, q.2.Nodup
  outSound : ∀ q ∈ s.m_outpoint_to_orphan_it, ∀ w ∈ q.2,
    ∃ p ∈ s.m_orphans, p.1 = w ∧ q.1 ∈ p.2.tx.vin
  outComplete : ∀ p ∈ s.m_orphans, ∀ op ∈ p.2.tx.vin,
    ∃ q ∈ s.m_outpoint_to_orphan_it, q.1 = op ∧ p.1 ∈ q.2

theorem wf_empty : Wf emptyOrph := by
  constructor <;> simp [emptyOrph]

/-- Under well-formedness the outpoint index is extensionally the relation
`liveSpend`. -/
theorem wf_out_iff {s : OrphState} (h : Wf s) (op : OutPoint) (w : Nat) :
    lookupMem op w s.m_outpoint_to_orphan_it ↔ liveSpend w op s := by
  constructor
  · rintro ⟨ws, hws, hwmem⟩
    obtain ⟨p, hp, hpw, hvin⟩ := h.outSound (op, ws) (alookup_some_mem hws) w hwmem
    refine ⟨p.2, ?_, hvin⟩
    have : (w, p.2) ∈ s.m_orphans := by
      have he : p = (w, p.2) := by
        rw [← hpw]
      rw [← he]
      exact hp
    exact mem_alookup_of_nodup h.keysNodup this
  · rintro ⟨e, he, hvin⟩
    obtain ⟨q, hq, hqop, hwq⟩ := h.outComplete (w, e) (alookup_some_mem he) op hvin
    refine ⟨q.2, ?_, hwq⟩
    have : (op, q.2) ∈ s.m_outpoint_to_orphan_it := by
      have heq : q = (op, q.2) := by
        rw [← hqop]
      rw [← heq]
      exact hq
    exact mem_alookup_of_nodup h.outKeysNodup this

theorem mem_aupdate {α β : Type} [DecidableEq α] {k : α} {v : β} {q : α × β}
    {m : List (α × β)} (h : q ∈ aupdate k v m) : q = (k, v) ∨ q ∈ m := by
  simp only [aupdate, List.mem_map] at h
  obtain ⟨p, hp, he⟩ := h
  by_cases hk : p.1 = k
  · rw [if_pos hk] at he
    exact Or.inl he.symm
  · rw [if_neg hk] at he
    exact Or.inr (he ▸ hp)

/-! ### Outpoint-index update lemmas -/

theorem lookupMem_iff_getD (op : OutPoint) (w : Nat) (m : List (OutPoint × List Nat)) :
    lookupMem op w m ↔ w ∈ ((alookup op m).getD []) := by
  unfold lookupMem
  cases hm : alookup op m with
  | some ws => simp
  | none => simp

theorem alookup_outInsert_self (op : OutPoint) (w : Nat) (m : List (OutPoint × List Nat)) :
    alookup op (outInsert op w m) = some (insertSet w ((alookup op m).getD [])) := by
  unfold outInsert
  cases hm : alookup op m with
  | some ws =>
      rw [alookup_aupdate_self, hm]
      rfl
  | none =>
      rw [alookup_append_none _ _ _ hm]
      simp [alookup, insertSet]

theorem alookup_outInsert_ne {op op' : OutPoint} (w : Nat) (m : List (OutPoint × List Nat))
    (hop : op' ≠ op) : alookup op' (outInsert op w m) = alookup op' m := by
  unfold outInsert
  cases hm : alookup op m with
  | some ws => exact alookup_aupdate_ne _ _ _ _ hop
  | none =>
      rw [alookup_append]
      cases hm' : alookup op' m with
      | some ws => simp
      | none =>
          simp only [alookup, if_neg (fun hh : op = op' => hop hh.symm)]

theorem lookupMem_outInsert (op : OutPoint) (w : Nat) (m : List (OutPoint × List Nat))
    (op' : OutPoint) (w' : Nat) :
    lookupMem op' w' (outInsert op w m) ↔ lookupMem op' w' m ∨ (op' = op ∧ w' = w) := by
  by_cases hop : op' = op
  · subst hop
    rw [lookupMem_iff_getD, lookupMem_iff_getD, alookup_outInsert_self]
    simp only [Option.getD_some]
    rw [mem_insertSet]
    tauto
  · rw [lookupMem_iff_getD, lookupMem_iff_getD, alookup_outInsert_ne _ _ hop]
    simp [hop]

theorem outInsert_keysNodup {op : OutPoint} {w : Nat} {m : List (OutPoint × List Nat)}
    (h : (m.map Prod.fst).Nodup) : ((outInsert op w m).map Prod.fst).Nodup := by
  unfold outInsert
  cases hm : alookup op m with
  | some ws => rw [keys_aupdate]; exact h
  | none =>
      rw [List.map_append]
      refine List.Nodup.append h (by simp) ?_
      intro a ha hae
      simp at hae
      subst hae
      exact (alookup_eq_none_iff _ m).mp hm ha

theorem outInsert_valsNodup {op : OutPoint} {w : Nat} {m : List (OutPoint × List Nat)}
    (h : ∀ q ∈ m, q.2.Nodup) : ∀ q ∈ outInsert op w m, q.2.Nodup := by
  unfold outInsert
  cases hm : alookup op m with
  | some ws =>
      intro q hq
      rcases mem_aupdate hq with rfl | hq'
      · exact nodup_insertSet (h (op, ws) (alookup_some_mem hm))
      · exact h q hq'
  | none =>
      intro q hq
      rcases List.mem_append.mp hq with hq' | hq'
      · exact h q hq'
      · simp at hq'
        subst hq'
        simp

theorem erase_eq_nil_sub {ws : List Nat} {w : Nat} (he : ws.erase w = []) :
    ∀ x ∈ ws, x = w := by
  intro x hx
  rcases ws with - | ⟨a, as⟩
  · cases hx
  · by_cases haw : a = w
    · subst haw
      rw [List.erase_cons_head] at he
      subst he
      simpa using hx
    · rw [List.erase_cons_tail] at he
      · cases he
      · simpa using haw

theorem outErase_eq_of_some {op : OutPoint} {w : Nat} {m : List (OutPoint × List Nat)}
    {ws : List Nat} (hm : alookup op m = some ws) :
    outErase op w m = if ws.erase w = [] then aerase op m else aupdate op (ws.erase w) m := by
  unfold outErase
  rw [hm]

theorem outErase_eq_of_none {op : OutPoint} {w : Nat} {m : List (OutPoint × List Nat)}
    (hm : alookup op m = none) : outErase op w m = m := by
  unfold outErase
  rw [hm]

theorem lookupMem_outEraseStep (op : OutPoint) (w : Nat) (m : List (OutPoint × List Nat))
    (hv : ∀ q ∈ m, q.2.Nodup) (op' : OutPoint) (w' : Nat) :
    lookupMem op' w' (outErase op w m) ↔ lookupMem op' w' m ∧ ¬(op' = op ∧ w' = w) := by
  rw [lookupMem_iff_getD, lookupMem_iff_getD]
  cases hm : alookup op m with
  | none =>
      rw [outErase_eq_of_none hm]
      constructor
      · intro h
        refine ⟨h, ?_⟩
        rintro ⟨rfl, rfl⟩
        rw [hm] at h
        cases h
      · exact And.left
  | some ws =>
      have hwsnd : ws.Nodup := hv (op, ws) (alookup_some_mem hm)
      rw [outErase_eq_of_some hm]
      by_cases he : ws.erase w = []
      · rw [if_pos he]
        by_cases hop : op' = op
        · subst hop
          rw [alookup_aerase_self, hm]
          constructor
          · intro h
            simp at h
          · rintro ⟨hmem, hne⟩
            have hmem2 : w' ∈ ws := by simpa using hmem
            exact absurd ⟨rfl, erase_eq_nil_sub he w' hmem2⟩ hne
        · rw [alookup_aerase_ne _ _ _ hop]
          simp [hop]
      · rw [if_neg he]
        by_cases hop : op' = op
        · subst hop
          rw [alookup_aupdate_self, hm]
          constructor
          · intro hmem
            have hmem2 : w' ∈ ws.erase w := by simpa using hmem
            have h3 := (List.Nodup.mem_erase_iff hwsnd).mp hmem2
            refine ⟨by simpa using h3.2, fun hh => h3.1 hh.2⟩
          · rintro ⟨hmem, hne⟩
            have hmem2 : w' ∈ ws := by simpa using hmem
            have h3 : w' ∈ ws.erase w :=
              (List.Nodup.mem_erase_iff hwsnd).mpr ⟨fun hh => hne ⟨rfl, hh⟩, hmem2⟩
            simpa using h3
        · rw [alookup_aupdate_ne _ _ _ _ hop]
          simp [hop]

theorem outErase_keysNodup {op : OutPoint} {w : Nat} {m : List (OutPoint × List Nat)}
    (h : (m.map Prod.fst).Nodup) : ((outErase op w m).map Prod.fst).Nodup := by
  cases hm : alookup op m with
  | none =>
      rw [outErase_eq_of_none hm]
      exact h
  | some ws =>
      rw [outErase_eq_of_some hm]
      by_cases he : ws.erase w = []
      · rw [if_pos he]
        exact List.Nodup.sublist (keys_aerase_sublist op m) h
      · rw [if_neg he]
        rw [keys_aupdate]
        exact h

theorem outErase_valsNodup {op : OutPoint} {w : Nat} {m : List (OutPoint × List Nat)}
    (h : ∀ q ∈ m, q.2.Nodup) : ∀ q ∈ outErase op w m, q.2.Nodup := by
  cases hm : alookup op m with
  | none =>
      rw [outErase_eq_of_none hm]
      exact h
  | some ws =>
      rw [outErase_eq_of_some hm]
      by_cases he : ws.erase w = []
      · rw [if_pos he]
        intro q hq
        exact h q (mem_aerase.mp hq).1
      · rw [if_neg he]
        intro q hq
        rcases mem_aupdate hq with rfl | hq'
        · exact List.Nodup.erase w (h (op, ws) (alookup_some_mem hm))
        · exact h q hq'

/-! ### Folded index updates (per-input loops in AddTx / EraseTx) -/

theorem lookupMem_outInsertAll (ops : List OutPoint) (w : Nat)
    (m : List (OutPoint × List Nat)) (op' : OutPoint) (w' : Nat) :
    lookupMem op' w' (ops.foldl (fun acc op => outInsert op w acc) m) ↔
      lookupMem op' w' m ∨ (op' ∈ ops ∧ w' = w) := by
  induction ops generalizing m with
  | nil => simp
  | cons op rest ih =>
      rw [List.foldl_cons, ih, lookupMem_outInsert]
      simp only [List.mem_cons]
      tauto

theorem outInsertAll_keysNodup (ops : List OutPoint) (w : Nat)
    {m : List (OutPoint × List Nat)} (h : (m.map Prod.fst).Nodup) :
    (((ops.foldl (fun acc op => outInsert op w acc) m)).map Prod.fst).Nodup := by
  induction ops generalizing m with
  | nil => exact h
  | cons op rest ih =>
      rw [List.foldl_cons]
      exact ih (outInsert_keysNodup h)

theorem outInsertAll_valsNodup (ops : List OutPoint) (w : Nat)
    {m : List (OutPoint × List Nat)} (h : ∀ q ∈ m, q.2.Nodup) :
    ∀ q ∈ ops.foldl (fun acc op => outInsert op w acc) m, q.2.Nodup := by
  induction ops generalizing m with
  | nil => exact h
  | cons op rest ih =>
      rw [List.foldl_cons]
      exact ih (outInsert_valsNodup h)

theorem lookupMem_outEraseAll (ops : List OutPoint) (w : Nat)
    {m : List (OutPoint × List Nat)} (hv : ∀ q ∈ m, q.2.Nodup)
    (op' : OutPoint) (w' : Nat) :
    lookupMem op' w' (ops.foldl (fun acc op => outErase op w acc) m) ↔
      lookupMem op' w' m ∧ ¬(op' ∈ ops ∧ w' = w) := by
  induction ops generalizing m with
  | nil => simp
  | cons op rest ih =>
      rw [List.foldl_cons, ih (outErase_valsNodup hv), lookupMem_outEraseStep _ _ _ hv]
      simp only [List.mem_cons]
      tauto

theorem outEraseAll_keysNodup (ops : List OutPoint) (w : Nat)
    {m : List (OutPoint × List Nat)} (h : (m.map Prod.fst).Nodup) :
    (((ops.foldl (fun acc op => outErase op w acc) m)).map Prod.fst).Nodup := by
  induction ops generalizing m with
  | nil => exact h
  | cons op rest ih =>
      rw [List.foldl_cons]
      exact ih (outErase_keysNodup h)

theorem outEraseAll_valsNodup (ops : List OutPoint) (w : Nat)
    {m : List (OutPoint × List Nat)} (h : ∀ q ∈ m, q.2.Nodup) :
    ∀ q ∈ ops.foldl (fun acc op => outErase op w acc) m, q.2.Nodup := by
  induction ops generalizing m with
  | nil => exact h
  | cons op rest ih =>
      rw [List.foldl_cons]
      exact ih (outErase_valsNodup h)

theorem lookupMem_of_mem {m : List (OutPoint × List Nat)} (hnd : (m.map Prod.fst).Nodup)
    {q : OutPoint × List Nat} (hq : q ∈ m) {x : Nat} (hx : x ∈ q.2) : lookupMem q.1 x m := by
  refine ⟨q.2, ?_, hx⟩
  apply mem_alookup_of_nodup hnd
  simpa using hq

theorem lookupMem_elim {m : List (OutPoint × List Nat)} {op : OutPoint} {x : Nat}
    (h : lookupMem op x m) : ∃ q ∈ m, q.1 = op ∧ x ∈ q.2 := by
  obtain ⟨ws, hws, hx⟩ := h
  exact ⟨(op, ws), alookup_some_mem hws, rfl, hx⟩

/-! ### AddTx preserves well-formedness -/

/-- Replacing the stored entry of a live key by one that differs only in
fields other than `tx` and `list_pos` keeps the orphanage well-formed
(this is what attaching an announcer does). -/
theorem wf_update_entry {s : OrphState} (h : Wf s) {w : Nat} {e e2 : OrphanTx}
    (hm : alookup w s.m_orphans = some e) (htx : e2.tx = e.tx)
    (hpos : e2.list_pos = e.list_pos) :
    Wf { s with m_orphans := aupdate w e2 s.m_orphans } := by
  have hsnd : ∀ p ∈ s.m_orphans, p.1 = w → p.2 = e := by
    intro p hp hpk
    have h2 : alookup w s.m_orphans = some p.2 := by
      apply mem_alookup_of_nodup h.keysNodup
      rw [← hpk]
      simpa using hp
    rw [hm] at h2
    injection h2 with hh
    exact hh.symm
  constructor
  · rw [keys_aupdate]
    exact h.keysNodup
  · intro p hp
    rcases mem_aupdate hp with rfl | hp'
    · have hke := h.keyMatch (w, e) (alookup_some_mem hm)
      simp only [htx]
      simpa using hke
    · exact h.keyMatch p hp'
  · simpa [length_aupdate] using h.lenEq
  · exact h.listNodup
  · intro p hp
    rcases mem_aupdate hp with rfl | hp'
    · have := h.posOk (w, e) (alookup_some_mem hm)
      simp only [hpos]
      simpa using this
    · exact h.posOk p hp'
  · intro x hx
    have := h.listKeys x hx
    rwa [keys_aupdate]
  · exact h.outKeysNodup
  · exact h.outValsNodup
  · intro q hq x hxq
    obtain ⟨p, hp, hpw, hvin⟩ := h.outSound q hq x hxq
    by_cases hpk : p.1 = w
    · refine ⟨(w, e2), ?_, ?_, ?_⟩
      · have := List.mem_map_of_mem (fun p : Nat × OrphanTx => if p.1 = w then (w, e2) else p) hp
        simpa [aupdate, hpk] using this
      · show w = x
        rw [← hpk, hpw]
      · show q.1 ∈ e2.tx.vin
        rw [htx, ← hsnd p hp hpk]
        exact hvin
    · refine ⟨p, ?_, hpw, hvin⟩
      have := List.mem_map_of_mem (fun p : Nat × OrphanTx => if p.1 = w then (w, e2) else p) hp
      simpa [aupdate, hpk] using this
  · intro p hp op hop
    rcases mem_aupdate hp with rfl | hp'
    · have hop2 : op ∈ e.tx.vin := by
        rw [htx] at hop
        exact hop
      obtain ⟨q, hq, hqo, hmem⟩ := h.outComplete (w, e) (alookup_some_mem hm) op hop2
      exact ⟨q, hq, hqo, by simpa using hmem⟩
    · exact h.outComplete p hp' op hop

theorem wf_addTx {s : OrphState} (h : Wf s) (tx : Tx) (peer : Nat) (parents : List Nat)
    (now : Nat) : Wf (addTx tx peer parents now s).2 := by
  cases hm : alookup tx.wtxid s.m_orphans with
  | some e =>
      have heq : (addTx tx peer parents now s).2 =
          { s with m_orphans := aupdate tx.wtxid (withAnnouncer peer e) s.m_orphans } := by
        unfold addTx
        rw [hm]
      rw [heq]
      exact wf_update_entry h hm rfl rfl
  | none =>
      have hnotin : tx.wtxid ∉ s.m_orphans.map Prod.fst := (alookup_eq_none_iff _ _).mp hm
      have hnotlst : tx.wtxid ∉ s.m_orphan_list := fun hc => hnotin (h.listKeys _ hc)
      by_cases hw : tx.weight > MAX_STANDARD_TX_WEIGHT
      · have heq : (addTx tx peer parents now s).2 = s := by
          unfold addTx
          rw [hm, if_pos hw]
        rw [heq]
        exact h
      · have heq : (addTx tx peer parents now s).2 =
            { s with
              m_orphans := s.m_orphans ++
                [(tx.wtxid, freshEntry tx peer parents now s.m_orphan_list.length)],
              m_orphan_list := s.m_orphan_list ++ [tx.wtxid],
              m_outpoint_to_orphan_it :=
                tx.vin.foldl (fun acc op => outInsert op tx.wtxid acc)
                  s.m_outpoint_to_orphan_it } := by
          unfold addTx
          rw [hm, if_neg hw]
        rw [heq]
        set entry : OrphanTx := freshEntry tx peer parents now s.m_orphan_list.length
          with hentry
        constructor
        · rw [List.map_append]
          refine List.Nodup.append h.keysNodup (by simp) ?_
          intro a ha hae
          simp at hae
          subst hae
          exact hnotin ha
        · intro p hp
          rcases List.mem_append.mp hp with hp' | hp'
          · exact h.keyMatch p hp'
          · simp at hp'
            subst hp'
            rfl
        · simp [h.lenEq]
        · refine List.Nodup.append h.listNodup (by simp) ?_
          intro a ha hae
          simp at hae
          subst hae
          exact hnotlst ha
        · intro p hp
          rcases List.mem_append.mp hp with hp' | hp'
          · have hpos := h.posOk p hp'
            have hlt : p.2.list_pos < s.m_orphan_list.length := by
              rcases List.getElem?_eq_some.mp hpos with ⟨hl, -⟩
              exact hl
            rw [List.getElem?_append, if_pos hlt]
            exact hpos
          · simp at hp'
            subst hp'
            show (s.m_orphan_list ++ [tx.wtxid])[entry.list_pos]? = some tx.wtxid
            have : entry.list_pos = s.m_orphan_list.length := rfl
            rw [this]
            exact List.getElem?_concat_length _ _
        · intro x hx
          rcases List.mem_append.mp hx with hx' | hx'
          · rw [List.map_append]
            exact List.mem_append.mpr (Or.inl (h.listKeys x hx'))
          · simp at hx'
            subst hx'
            rw [List.map_append]
            refine List.mem_append.mpr (Or.inr ?_)
            simp
        · exact outInsertAll_keysNodup _ _ h.outKeysNodup
        · exact outInsertAll_valsNodup _ _ h.outValsNodup
        · intro q hq x hxq
          have hl : lookupMem q.1 x
              (tx.vin.foldl (fun acc op => outInsert op tx.wtxid acc)
                s.m_outpoint_to_orphan_it) :=
            lookupMem_of_mem (outInsertAll_keysNodup _ _ h.outKeysNodup) hq hxq
          rcases (lookupMem_outInsertAll _ _ _ _ _).mp hl with hold | ⟨hvin, rfl⟩
          · obtain ⟨p, hp, hpw, hpv⟩ := lookupMem_elim hold
            obtain ⟨p2, hp2, hp2w, hp2v⟩ := h.outSound p hp x hpv
            refine ⟨p2, List.mem_append.mpr (Or.inl hp2), hp2w, ?_⟩
            rw [hpw] at hp2v
            exact hp2v
          · refine ⟨(tx.wtxid, entry), List.mem_append.mpr (Or.inr (by simp)), rfl, hvin⟩
        · intro p hp op hop
          rcases List.mem_append.mp hp with hp' | hp'
          · obtain ⟨q, hq, hqo, hmem⟩ := h.outComplete p hp' op hop
            have hl : lookupMem op p.1 s.m_outpoint_to_orphan_it := by
              rw [← hqo]
              exact lookupMem_of_mem h.outKeysNodup hq hmem
            have hl2 := (lookupMem_outInsertAll tx.vin tx.wtxid
              s.m_outpoint_to_orphan_it op p.1).mpr (Or.inl hl)
            obtain ⟨q2, hq2, hq2o, hq2m⟩ := lookupMem_elim hl2
            exact ⟨q2, hq2, hq2o, hq2m⟩
          · simp at hp'
            subst hp'
            have hl2 := (lookupMem_outInsertAll tx.vin tx.wtxid
              s.m_outpoint_to_orphan_it op tx.wtxid).mpr (Or.inr ⟨hop, rfl⟩)
            obtain ⟨q2, hq2, hq2o, hq2m⟩ := lookupMem_elim hl2
            exact ⟨q2, hq2, hq2o, hq2m⟩

/-! ### List lemmas for the swap-remove step -/

theorem set_dropLast_comm {l : List Nat} {i : Nat} {a : Nat} (hi : i < l.length - 1) :
    (l.set i a).dropLast = (l.dropLast).set i a := by
  apply List.ext_getElem?
  intro n
  rw [List.dropLast_eq_take, List.length_set, List.getElem?_take, List.getElem?_set,
    List.getElem?_set, List.length_dropLast, List.dropLast_eq_take, List.getElem?_take]
  split_ifs <;> first | rfl | (exfalso; omega)

theorem nodup_set_of_not_mem :
    ∀ (l : List Nat) (i : Nat) (a : Nat), l.Nodup → a ∉ l → (l.set i a).Nodup := by
  intro l
  induction l with
  | nil =>
      intro i a _ _
      simp
  | cons x xs ih =>
      intro i a h ha
      cases i with
      | zero =>
          simp only [List.set_cons_zero]
          rw [List.nodup_cons] at h ⊢
          exact ⟨fun hc => ha (List.mem_cons_of_mem _ hc), h.2⟩
      | succ n =>
          simp only [List.set_cons_succ]
          rw [List.nodup_cons] at h ⊢
          constructor
          · intro hc
            rcases List.mem_or_eq_of_mem_set hc with hc2 | hc2
            · exact h.1 hc2
            · exact ha (hc2 ▸ List.mem_cons_self x xs)
          · exact ih n a h.2 (fun hc => ha (List.mem_cons_of_mem _ hc))

theorem mem_keys_aerase {α β : Type} [DecidableEq α] {k x : α} {m : List (α × β)} :
    x ∈ (aerase k m).map Prod.fst ↔ x ∈ m.map Prod.fst ∧ x ≠ k := by
  constructor
  · intro h
    obtain ⟨p, hp, rfl⟩ := List.mem_map.mp h
    obtain ⟨hpm, hpk⟩ := mem_aerase.mp hp
    exact ⟨List.mem_map_of_mem Prod.fst hpm, hpk⟩
  · rintro ⟨h, hne⟩
    obtain ⟨p, hp, rfl⟩ := List.mem_map.mp h
    exact List.mem_map_of_mem Prod.fst (mem_aerase.mpr ⟨hp, hne⟩)

/-! ### EraseTx equations and preservation -/

theorem eraseTx_eq_of_none {w : Nat} {s : OrphState}
    (hm : alookup w s.m_orphans = none) : eraseTx w s = (0, s) := by
  unfold eraseTx
  rw [hm]

theorem eraseTx_eq_last {w : Nat} {s : OrphState} {e : OrphanTx}
    (hm : alookup w s.m_orphans = some e)
    (hl : e.list_pos + 1 = s.m_orphan_list.length) :
    eraseTx w s = (1, { s with
      m_orphans := aerase w s.m_orphans,
      m_orphan_list := s.m_orphan_list.dropLast,
      m_outpoint_to_orphan_it :=
        e.tx.vin.foldl (fun acc op => outErase op w acc) s.m_outpoint_to_orphan_it }) := by
  unfold eraseTx
  rw [hm]
  simp [hl]

theorem eraseTx_eq_swap {w : Nat} {s : OrphState} {e : OrphanTx} {lastW : Nat}
    (hm : alookup w s.m_orphans = some e)
    (hl : e.list_pos + 1 ≠ s.m_orphan_list.length)
    (hlast : s.m_orphan_list.getLast? = some lastW) :
    eraseTx w s = (1, { s with
      m_orphans := aerase w (amodify lastW (setPos e.list_pos) s.m_orphans),
      m_orphan_list := (s.m_orphan_list.set e.list_pos lastW).dropLast,
      m_outpoint_to_orphan_it :=
        e.tx.vin.foldl (fun acc op => outErase op w acc) s.m_outpoint_to_orphan_it }) := by
  unfold eraseTx
  rw [hm]
  simp [hl, hlast]

theorem wf_eraseTx {s : OrphState} (h : Wf s) (w : Nat) : Wf (eraseTx w s).2 := by
  cases hm : alookup w s.m_orphans with
  | none =>
      rw [eraseTx_eq_of_none hm]
      exact h
  | some e =>
      have hmem : (w, e) ∈ s.m_orphans := alookup_some_mem hm
      have hwkeys : w ∈ s.m_orphans.map Prod.fst := List.mem_map_of_mem Prod.fst hmem
      have hpos : s.m_orphan_list[e.list_pos]? = some w := h.posOk (w, e) hmem
      have hlt : e.list_pos < s.m_orphan_list.length := (List.getElem?_eq_some.mp hpos).1
      by_cases hl : e.list_pos + 1 = s.m_orphan_list.length
      · -- deleting the last entry of m_orphan_list: plain pop_back
        rw [eraseTx_eq_last hm hl]
        have hepos : e.list_pos = s.m_orphan_list.length - 1 := by omega
        constructor
        · exact List.Nodup.sublist (keys_aerase_sublist w _) h.keysNodup
        · intro p hp
          exact h.keyMatch p (mem_aerase.mp hp).1
        · show s.m_orphan_list.dropLast.length = (aerase w s.m_orphans).length
          have h4 := length_aerase_of_mem h.keysNodup hwkeys
          have hle := h.lenEq
          rw [List.length_dropLast]
          omega
        · exact List.Nodup.sublist (List.dropLast_sublist _) h.listNodup
        · intro p hp
          obtain ⟨hpM, hpw⟩ := mem_aerase.mp hp
          have hp1 : s.m_orphan_list[p.2.list_pos]? = some p.1 := h.posOk p hpM
          have hpb : p.2.list_pos < s.m_orphan_list.length := (List.getElem?_eq_some.mp hp1).1
          have hne : p.2.list_pos ≠ s.m_orphan_list.length - 1 := by
            intro hc
            have h2 : s.m_orphan_list[s.m_orphan_list.length - 1]? = some w := by
              rw [← hepos]
              exact hpos
            rw [hc, h2] at hp1
            injection hp1 with h3
            exact hpw h3.symm
          show s.m_orphan_list.dropLast[p.2.list_pos]? = some p.1
          rw [List.dropLast_eq_take, List.getElem?_take, if_pos (by omega)]
          exact hp1
        · intro x hx
          obtain ⟨i, hi⟩ := List.mem_iff_getElem?.mp hx
          rw [List.dropLast_eq_take, List.getElem?_take] at hi
          by_cases hilt : i < s.m_orphan_list.length - 1
          · rw [if_pos hilt] at hi
            have hxlst : x ∈ s.m_orphan_list := List.mem_iff_getElem?.mpr ⟨i, hi⟩
            have hxw : x ≠ w := by
              rintro rfl
              have h2 : s.m_orphan_list[e.list_pos]? = some x := hpos
              have h3 := List.getElem?_inj (by omega) h.listNodup (hi.trans h2.symm)
              omega
            exact mem_keys_aerase.mpr ⟨h.listKeys x hxlst, hxw⟩
          · rw [if_neg hilt] at hi
            cases hi
        · exact outEraseAll_keysNodup _ _ h.outKeysNodup
        · exact outEraseAll_valsNodup _ _ h.outValsNodup
        · intro q hq x hxq
          have hlm : lookupMem q.1 x
              (e.tx.vin.foldl (fun acc op => outErase op w acc) s.m_outpoint_to_orphan_it) :=
            lookupMem_of_mem (outEraseAll_keysNodup _ _ h.outKeysNodup) hq hxq
          obtain ⟨hold, hnot⟩ := (lookupMem_outEraseAll _ _ h.outValsNodup _ _).mp hlm
          obtain ⟨e1, he1, hvin1⟩ := (wf_out_iff h q.1 x).mp hold
          have hxw : x ≠ w := by
            rintro rfl
            rw [hm] at he1
            injection he1 with he2
            subst he2
            exact hnot ⟨hvin1, rfl⟩
          have he1b : alookup x (aerase w s.m_orphans) = some e1 := by
            rw [alookup_aerase_ne _ _ _ hxw]
            exact he1
          exact ⟨(x, e1), alookup_some_mem he1b, rfl, hvin1⟩
        · intro p hp op hop
          obtain ⟨hpM, hpw⟩ := mem_aerase.mp hp
          have hls : liveSpend p.1 op s := by
            refine ⟨p.2, ?_, hop⟩
            apply mem_alookup_of_nodup h.keysNodup
            simpa using hpM
          have hlm := (wf_out_iff h op p.1).mpr hls
          have hlm2 := (lookupMem_outEraseAll e.tx.vin w h.outValsNodup op p.1).mpr
            ⟨hlm, fun hh => hpw hh.2⟩
          exact lookupMem_elim hlm2
      · -- swap-remove: the tail entry moves into the vacated slot
        obtain ⟨lastW, hlast⟩ : ∃ x, s.m_orphan_list.getLast? = some x := by
          rw [List.getLast?_eq_getElem?]
          exact ⟨_, List.getElem?_eq_getElem (by omega)⟩
        rw [eraseTx_eq_swap hm hl hlast]
        have hlastidx : s.m_orphan_list[s.m_orphan_list.length - 1]? = some lastW := by
          rw [← List.getLast?_eq_getElem?]
          exact hlast
        have hlast_in_lst : lastW ∈ s.m_orphan_list :=
          List.mem_iff_getElem?.mpr ⟨_, hlastidx⟩
        have hlastkeys : lastW ∈ s.m_orphans.map Prod.fst := h.listKeys lastW hlast_in_lst
        have hwne : w ≠ lastW := by
          rintro rfl
          have h3 := List.getElem?_inj (by omega) h.listNodup (hpos.trans hlastidx.symm)
          omega
        have hposrange : e.list_pos < s.m_orphan_list.length - 1 := by omega
        have hsetdl : (s.m_orphan_list.set e.list_pos lastW).dropLast =
            (s.m_orphan_list.dropLast).set e.list_pos lastW := set_dropLast_comm hposrange
        constructor
        · refine List.Nodup.sublist (keys_aerase_sublist w _) ?_
          rw [keys_amodify]
          exact h.keysNodup
        · intro p hp
          obtain ⟨hpM, hpw⟩ := mem_aerase.mp hp
          obtain ⟨p0, hp0, hcase⟩ := mem_amodify hpM
          rcases hcase with ⟨-, heq⟩ | ⟨-, heq⟩
          · rw [heq]
            exact h.keyMatch p0 hp0
          · rw [heq]
            exact h.keyMatch p0 hp0
        · show ((s.m_orphan_list.set e.list_pos lastW).dropLast).length =
            (aerase w (amodify lastW (setPos e.list_pos) s.m_orphans)).length
          have h1 : w ∈ (amodify lastW (setPos e.list_pos) s.m_orphans).map Prod.fst := by
            rw [keys_amodify]
            exact hwkeys
          have h2 : ((amodify lastW (setPos e.list_pos) s.m_orphans).map Prod.fst).Nodup := by
            rw [keys_amodify]
            exact h.keysNodup
          have h3 := length_aerase_of_mem h2 h1
          have hle := h.lenEq
          rw [List.length_dropLast, List.length_set]
          rw [length_amodify] at h3
          omega
        · rw [hsetdl]
          refine nodup_set_of_not_mem _ _ _
            (List.Nodup.sublist (List.dropLast_sublist _) h.listNodup) ?_
          intro hc
          obtain ⟨i, hi⟩ := List.mem_iff_getElem?.mp hc
          rw [List.dropLast_eq_take, List.getElem?_take] at hi
          by_cases hilt : i < s.m_orphan_list.length - 1
          · rw [if_pos hilt] at hi
            have h3 := List.getElem?_inj (by omega) h.listNodup (hi.trans hlastidx.symm)
            omega
          · rw [if_neg hilt] at hi
            cases hi
        · intro p hp
          obtain ⟨hpM, hpw⟩ := mem_aerase.mp hp
          obtain ⟨p0, hp0, hcase⟩ := mem_amodify hpM
          rcases hcase with ⟨hp0ne, heq⟩ | ⟨hp0last, heq⟩
          · rw [heq] at hpw ⊢
            have hp1 : s.m_orphan_list[p0.2.list_pos]? = some p0.1 := h.posOk p0 hp0
            have hpb : p0.2.list_pos < s.m_orphan_list.length := (List.getElem?_eq_some.mp hp1).1
            have hnee : p0.2.list_pos ≠ e.list_pos := by
              intro hc
              rw [hc, hpos] at hp1
              injection hp1 with h3
              exact hpw h3.symm
            have hnel : p0.2.list_pos ≠ s.m_orphan_list.length - 1 := by
              intro hc
              rw [hc, hlastidx] at hp1
              injection hp1 with h3
              exact hp0ne h3.symm
            show ((s.m_orphan_list.set e.list_pos lastW).dropLast)[p0.2.list_pos]? = some p0.1
            rw [hsetdl, List.getElem?_set, if_neg (fun hc : e.list_pos = p0.2.list_pos => hnee hc.symm)]
            rw [List.dropLast_eq_take, List.getElem?_take, if_pos (by omega)]
            exact hp1
          · rw [heq]
            show ((s.m_orphan_list.set e.list_pos lastW).dropLast)[e.list_pos]? = some p0.1
            rw [hsetdl, List.getElem?_set, if_pos rfl,
              if_pos (by rw [List.length_dropLast]; omega)]
            rw [hp0last]
        · intro x hx
          rw [hsetdl] at hx
          obtain ⟨i, hi⟩ := List.mem_iff_getElem?.mp hx
          rw [List.getElem?_set] at hi
          by_cases hie : e.list_pos = i
          · rw [if_pos hie, if_pos (by rw [List.length_dropLast]; omega)] at hi
            injection hi with h3
            subst h3
            refine mem_keys_aerase.mpr ⟨?_, fun hc => hwne hc.symm⟩
            rw [keys_amodify]
            exact hlastkeys
          · rw [if_neg hie] at hi
            rw [List.dropLast_eq_take, List.getElem?_take] at hi
            by_cases hilt : i < s.m_orphan_list.length - 1
            · rw [if_pos hilt] at hi
              have hxlst : x ∈ s.m_orphan_list := List.mem_iff_getElem?.mpr ⟨i, hi⟩
              have hxw : x ≠ w := by
                rintro rfl
                have h3 := List.getElem?_inj (by omega) h.listNodup (hi.trans hpos.symm)
                exact hie h3.symm
              refine mem_keys_aerase.mpr ⟨?_, hxw⟩
              rw [keys_amodify]
              exact h.listKeys x hxlst
            · rw [if_neg hilt] at hi
              cases hi
        · exact outEraseAll_keysNodup _ _ h.outKeysNodup
        · exact outEraseAll_valsNodup _ _ h.outValsNodup
        · intro q hq x hxq
          have hlm : lookupMem q.1 x
              (e.tx.vin.foldl (fun acc op => outErase op w acc) s.m_outpoint_to_orphan_it) :=
            lookupMem_of_mem (outEraseAll_keysNodup _ _ h.outKeysNodup) hq hxq
          obtain ⟨hold, hnot⟩ := (lookupMem_outEraseAll _ _ h.outValsNodup _ _).mp hlm
          obtain ⟨e1, he1, hvin1⟩ := (wf_out_iff h q.1 x).mp hold
          have hxw : x ≠ w := by
            rintro rfl
            rw [hm] at he1
            injection he1 with he2
            subst he2
            exact hnot ⟨hvin1, rfl⟩
          have hnew : ∃ e2, alookup x
              (aerase w (amodify lastW (setPos e.list_pos) s.m_orphans)) = some e2 ∧
              e2.tx = e1.tx := by
            by_cases hxl : x = lastW
            · subst hxl
              refine ⟨setPos e.list_pos e1, ?_, rfl⟩
              rw [alookup_aerase_ne _ _ _ hxw, alookup_amodify_self, he1]
              rfl
            · refine ⟨e1, ?_, rfl⟩
              rw [alookup_aerase_ne _ _ _ hxw, alookup_amodify_ne _ _ _ _ hxl]
              exact he1
          obtain ⟨e2, he2, htx2⟩ := hnew
          refine ⟨(x, e2), alookup_some_mem he2, rfl, ?_⟩
          rw [htx2]
          exact hvin1
        · intro p hp op hop
          obtain ⟨hpM, hpw⟩ := mem_aerase.mp hp
          obtain ⟨p0, hp0, hcase⟩ := mem_amodify hpM
          have hfacts : p.1 = p0.1 ∧ p.2.tx = p0.2.tx := by
            rcases hcase with ⟨-, rfl⟩ | ⟨-, rfl⟩
            · exact ⟨rfl, rfl⟩
            · exact ⟨rfl, rfl⟩
          have hls : liveSpend p.1 op s := by
            refine ⟨p0.2, ?_, ?_⟩
            · rw [hfacts.1]
              apply mem_alookup_of_nodup h.keysNodup
              simpa using hp0
            · rw [← hfacts.2]
              exact hop
          have hlm := (wf_out_iff h op p.1).mpr hls
          have hlm2 := (lookupMem_outEraseAll e.tx.vin w h.outValsNodup op p.1).mpr
            ⟨hlm, fun hh => hpw hh.2⟩
          exact lookupMem_elim hlm2

/-! ### LimitOrphans preserves well-formedness; operation sequences -/

theorem wf_with_sweep {t : OrphState} (h : Wf t) (x : Nat) :
    Wf { t with m_next_sweep := x } := by
  constructor
  · exact h.keysNodup
  · exact h.keyMatch
  · exact h.lenEq
  · exact h.listNodup
  · exact h.posOk
  · exact h.listKeys
  · exact h.outKeysNodup
  · exact h.outValsNodup
  · exact h.outSound
  · exact h.outComplete

theorem wf_sweepFold (now : Nat) (l : List (Nat × OrphanTx)) :
    ∀ acc : List Nat × Nat × OrphState, Wf acc.2.2 →
      Wf (List.foldl (sweepStep now) acc l).2.2 := by
  induction l with
  | nil =>
      intro acc h
      exact h
  | cons p rest ih =>
      intro acc h
      rw [List.foldl_cons]
      apply ih
      unfold sweepStep
      by_cases hcnd : p.2.nTimeExpire ≤ now
      · rw [if_pos hcnd]
        exact wf_eraseTx h p.1
      · rw [if_neg hcnd]
        exact h

theorem wf_sweepPhase {s : OrphState} (h : Wf s) (now : Nat) :
    Wf (sweepPhase now s).2 := by
  unfold sweepPhase
  by_cases hsw : s.m_next_sweep ≤ now
  · rw [if_pos hsw]
    exact wf_with_sweep (wf_sweepFold now s.m_orphans _ h) _
  · rw [if_neg hsw]
    exact h

theorem wf_evictLoop (fuel : Nat) (rng : List Nat) (maxO : Nat) :
    ∀ s : OrphState, Wf s → Wf (evictLoop fuel rng maxO s).2 := by
  induction fuel generalizing rng with
  | zero =>
      intro s h
      exact h
  | succ f ih =>
      intro s h
      unfold evictLoop
      by_cases hgt : s.m_orphans.length > maxO
      · rw [if_pos hgt]
        cases hw : s.m_orphan_list[rng.headD 0 % s.m_orphan_list.length]? with
        | some w => exact ih rng.tail _ (wf_eraseTx h w)
        | none => exact h
      · rw [if_neg hgt]
        exact h

theorem wf_limitOrphans {s : OrphState} (h : Wf s) (maxO : Nat) (rng : List Nat)
    (now : Nat) : Wf (limitOrphans maxO rng now s).2 := by
  unfold limitOrphans
  exact wf_evictLoop _ _ _ _ (wf_sweepPhase h now)

/-- One call in a client-visible orphanage history (the operations of
testable property 1 of the spec). -/
inductive OrphOp where
  | add (tx : Tx) (peer : Nat) (parents : List Nat) (now : Nat)
  | erase (w : Nat)
  | limit (maxOrphans : Nat) (rng : List Nat) (now : Nat)

/-- Apply one call to the orphanage state. -/
def applyOrphOp (s : OrphState) (o : OrphOp) : OrphState :=
  match o with
  | .add tx peer parents now => (addTx tx peer parents now s).2
  | .erase w => (eraseTx w s).2
  | .limit maxO rng now => (limitOrphans maxO rng now s).2

/-- Run a sequence of calls from the empty orphanage. -/
def runOps (ops : List OrphOp) : OrphState :=
  ops.foldl applyOrphOp emptyOrph

theorem wf_applyOrphOp {s : OrphState} (h : Wf s) (o : OrphOp) : Wf (applyOrphOp s o) := by
  cases o with
  | add tx peer parents now => exact wf_addTx h tx peer parents now
  | erase w => exact wf_eraseTx h w
  | limit maxO rng now => exact wf_limitOrphans h maxO rng now

theorem wf_runOps (ops : List OrphOp) : Wf (runOps ops) := by
  unfold runOps
  have hgen : ∀ s : OrphState, Wf s → Wf (ops.foldl applyOrphOp s) := by
    induction ops with
    | nil =>
        intro s h
        exact h
    | cons o rest ih =>
        intro s h
        rw [List.foldl_cons]
        exact ih _ (wf_applyOrphOp h o)
  exact hgen emptyOrph wf_empty

instance (s : OrphState) : Decidable (Wf s) :=
  decidable_of_iff ((s.m_orphans.map Prod.fst).Nodup ∧
      (∀ p ∈ s.m_orphans, p.2.tx.wtxid = p.1) ∧
      s.m_orphan_list.length = s.m_orphans.length ∧
      s.m_orphan_list.Nodup ∧
      (∀ p ∈ s.m_orphans, s.m_orphan_list[p.2.list_pos]? = some p.1) ∧
      (∀ w ∈ s.m_orphan_list, w ∈ s.m_orphans.map Prod.fst) ∧
      (s.m_outpoint_to_orphan_it.map Prod.fst).Nodup ∧
      (∀ q ∈ s.m_outpoint_to_orphan_it, q.2.Nodup) ∧
      (∀ q ∈ s.m_outpoint_to_orphan_it, ∀ w ∈ q.2,
        ∃ p ∈ s.m_orphans, p.1 = w ∧ q.1 ∈ p.2.tx.vin) ∧
      (∀ p ∈ s.m_orphans, ∀ op ∈ p.2.tx.vin,
        ∃ q ∈ s.m_outpoint_to_orphan_it, q.1 = op ∧ p.1 ∈ q.2))
    ⟨fun h => ⟨h.1, h.2.1, h.2.2.1, h.2.2.2.1, h.2.2.2.2.1, h.2.2.2.2.2.1,
        h.2.2.2.2.2.2.1, h.2.2.2.2.2.2.2.1, h.2.2.2.2.2.2.2.2.1, h.2.2.2.2.2.2.2.2.2⟩,
      fun h => ⟨h.keysNodup, h.keyMatch, h.lenEq, h.listNodup, h.posOk, h.listKeys,
        h.outKeysNodup, h.outValsNodup, h.outSound, h.outComplete⟩⟩

/-- C1: for every finite sequence of AddTx / EraseTx / LimitOrphans calls
starting from the empty orphanage, the three indices cohere after each
call: `|m_orphan_list| = |m_orphans|`; every entry's `list_pos` indexes
`m_orphan_list` and points back to the entry's wtxid; and the outpoint
index holds exactly the pairs `(prevout, wtxid)` in which `prevout` is an
input of the live entry `wtxid`. -/
theorem orphanage_indices_cohere (ops : List OrphOp) :
    (runOps ops).m_orphan_list.length = (runOps ops).m_orphans.length ∧
    (∀ p ∈ (runOps ops).m_orphans,
      (runOps ops).m_orphan_list[p.2.list_pos]? = some p.1) ∧
    (∀ op w, lookupMem op w (runOps ops).m_outpoint_to_orphan_it ↔
      liveSpend w op (runOps ops)) := by
  have h := wf_runOps ops
  exact ⟨h.lenEq, h.posOk, fun op w => wf_out_iff h op w⟩

/-! ### Per-field behaviour of EraseTx (needed by the remaining claims) -/

theorem eraseTx_workset (w : Nat) (s : OrphState) :
    (eraseTx w s).2.m_peer_work_set = s.m_peer_work_set := by
  cases hm : alookup w s.m_orphans with
  | none => rw [eraseTx_eq_of_none hm]
  | some e =>
      unfold eraseTx
      rw [hm]

theorem eraseTx_next_sweep (w : Nat) (s : OrphState) :
    (eraseTx w s).2.m_next_sweep = s.m_next_sweep := by
  cases hm : alookup w s.m_orphans with
  | none => rw [eraseTx_eq_of_none hm]
  | some e =>
      unfold eraseTx
      rw [hm]

theorem eraseTx_lookup_self (w : Nat) (s : OrphState) :
    alookup w (eraseTx w s).2.m_orphans = none := by
  cases hm : alookup w s.m_orphans with
  | none =>
      rw [eraseTx_eq_of_none hm]
      exact hm
  | some e =>
      unfold eraseTx
      rw [hm]
      exact alookup_aerase_self w _

/-- The per-entry data the swap-remove fixup cannot touch. -/
def entryView (e : OrphanTx) : Tx × List Nat × Nat × List Nat :=
  (e.tx, e.announcers, e.nTimeExpire, e.parent_txids)

theorem eraseTx_lookup_ne (w w' : Nat) (s : OrphState) (hne : w' ≠ w) :
    (alookup w' (eraseTx w s).2.m_orphans).map entryView =
      (alookup w' s.m_orphans).map entryView := by
  cases hm : alookup w s.m_orphans with
  | none => rw [eraseTx_eq_of_none hm]
  | some e =>
      unfold eraseTx
      rw [hm]
      show (alookup w' (aerase w _)).map entryView = _
      rw [alookup_aerase_ne _ _ _ hne]
      by_cases hcond : e.list_pos + 1 ≠ s.m_orphan_list.length
      · rw [if_pos hcond]
        cases hgl : s.m_orphan_list.getLast? with
        | some lastW =>
            show (alookup w' (amodify lastW (setPos e.list_pos) s.m_orphans)).map entryView = _
            by_cases hwl : w' = lastW
            · subst hwl
              rw [alookup_amodify_self]
              cases alookup w' s.m_orphans with
              | none => rfl
              | some e1 => rfl
            · rw [alookup_amodify_ne _ _ _ _ hwl]
        | none => rfl
      · rw [if_neg hcond]

/-- C6: AddTx returns `true` exactly when it creates a new entry, i.e. when
no entry with `tx.wtxid` exists and the weight is within
`MAX_STANDARD_TX_WEIGHT`; on a duplicate it only inserts the peer into the
existing entry's announcer set and returns `false`; on an oversized
transaction with no existing entry it leaves the state unchanged and
returns `false`. -/
theorem addTx_spec (tx : Tx) (peer : Nat) (parents : List Nat) (now : Nat) (s : OrphState) :
    ((addTx tx peer parents now s).1 = true ↔
      alookup tx.wtxid s.m_orphans = none ∧ tx.weight ≤ MAX_STANDARD_TX_WEIGHT) ∧
    ((addTx tx peer parents now s).1 = true →
      alookup tx.wtxid (addTx tx peer parents now s).2.m_orphans =
        some (freshEntry tx peer parents now s.m_orphan_list.length)) ∧
    (∀ e, alookup tx.wtxid s.m_orphans = some e →
      (addTx tx peer parents now s).1 = false ∧
      alookup tx.wtxid (addTx tx peer parents now s).2.m_orphans =
        some (withAnnouncer peer e) ∧
      (∀ w, w ≠ tx.wtxid →
        alookup w (addTx tx peer parents now s).2.m_orphans = alookup w s.m_orphans) ∧
      (addTx tx peer parents now s).2.m_orphan_list = s.m_orphan_list ∧
      (addTx tx peer parents now s).2.m_outpoint_to_orphan_it =
        s.m_outpoint_to_orphan_it ∧
      (addTx tx peer parents now s).2.m_peer_work_set = s.m_peer_work_set ∧
      (addTx tx peer parents now s).2.m_next_sweep = s.m_next_sweep) ∧
    (alookup tx.wtxid s.m_orphans = none → tx.weight > MAX_STANDARD_TX_WEIGHT →
      addTx tx peer parents now s = (false, s)) := by
  refine ⟨?_, ?_, ?_, ?_⟩
  · constructor
    · intro htrue
      cases hm : alookup tx.wtxid s.m_orphans with
      | some e =>
          have : (addTx tx peer parents now s).1 = false := by
            unfold addTx
            rw [hm]
          rw [this] at htrue
          cases htrue
      | none =>
          refine ⟨rfl, ?_⟩
          by_cases hw : tx.weight > MAX_STANDARD_TX_WEIGHT
          · have : (addTx tx peer parents now s).1 = false := by
              unfold addTx
              rw [hm, if_pos hw]
            rw [this] at htrue
            cases htrue
          · omega
    · rintro ⟨hm, hw⟩
      unfold addTx
      rw [hm, if_neg (by omega : ¬ tx.weight > MAX_STANDARD_TX_WEIGHT)]
  · intro htrue
    cases hm : alookup tx.wtxid s.m_orphans with
    | some e =>
        have : (addTx tx peer parents now s).1 = false := by
          unfold addTx
          rw [hm]
        rw [this] at htrue
        cases htrue
    | none =>
        by_cases hw : tx.weight > MAX_STANDARD_TX_WEIGHT
        · have : (addTx tx peer parents now s).1 = false := by
            unfold addTx
            rw [hm, if_pos hw]
          rw [this] at htrue
          cases htrue
        · have heq : (addTx tx peer parents now s).2 =
              { s with
                m_orphans := s.m_orphans ++
                  [(tx.wtxid, freshEntry tx peer parents now s.m_orphan_list.length)],
                m_orphan_list := s.m_orphan_list ++ [tx.wtxid],
                m_outpoint_to_orphan_it :=
                  tx.vin.foldl (fun acc op => outInsert op tx.wtxid acc)
                    s.m_outpoint_to_orphan_it } := by
            unfold addTx
            rw [hm, if_neg hw]
          rw [heq]
          show alookup tx.wtxid (s.m_orphans ++ _) = _
          rw [alookup_append_none _ _ _ hm]
          simp [alookup]
  · intro e hm
    have heq : (addTx tx peer parents now s).2 =
        { s with m_orphans := aupdate tx.wtxid (withAnnouncer peer e) s.m_orphans } := by
      unfold addTx
      rw [hm]
    have hfst : (addTx tx peer parents now s).1 = false := by
      unfold addTx
      rw [hm]
    refine ⟨hfst, ?_, ?_, ?_, ?_, ?_, ?_⟩
    · rw [heq]
      show alookup tx.wtxid (aupdate tx.wtxid (withAnnouncer peer e) s.m_orphans) = _
      rw [alookup_aupdate_self, hm]
      rfl
    · intro w hwne
      rw [heq]
      exact alookup_aupdate_ne _ _ _ _ hwne
    · rw [heq]
    · rw [heq]
    · rw [heq]
    · rw [heq]
  · intro hm hw
    unfold addTx
    rw [hm, if_pos hw]

/-- C8: EraseOrphanOfPeer is a no-op (peer work sets included) when the
wtxid is not in the orphanage; otherwise it first removes the wtxid from
this peer's work set, then erases the whole entry if the peer is its sole
announcer, removes only the peer from the announcer set if there are other
announcers, and touches no entry if the peer never announced it. -/
theorem eraseOrphanOfPeer_spec (w peer : Nat) (s : OrphState) :
    (alookup w s.m_orphans = none → eraseOrphanOfPeer w peer s = s) ∧
    (∀ e, alookup w s.m_orphans = some e →
      ((∀ ws, alookup peer s.m_peer_work_set = some ws →
          alookup peer (eraseOrphanOfPeer w peer s).m_peer_work_set = some (ws.erase w)) ∧
        (alookup peer s.m_peer_work_set = none →
          alookup peer (eraseOrphanOfPeer w peer s).m_peer_work_set = none) ∧
        (∀ q, q ≠ peer → alookup q (eraseOrphanOfPeer w peer s).m_peer_work_set =
          alookup q s.m_peer_work_set)) ∧
      (peer ∈ e.announcers → e.announcers.length = 1 →
        alookup w (eraseOrphanOfPeer w peer s).m_orphans = none) ∧
      (peer ∈ e.announcers → e.announcers.length ≠ 1 →
        alookup w (eraseOrphanOfPeer w peer s).m_orphans = some (dropAnnouncer peer e)) ∧
      (peer ∉ e.announcers → (eraseOrphanOfPeer w peer s).m_orphans = s.m_orphans)) := by
  have heqnone : alookup w s.m_orphans = none → eraseOrphanOfPeer w peer s = s := by
    intro hm
    unfold eraseOrphanOfPeer
    rw [hm]
  refine ⟨heqnone, ?_⟩
  intro e hm
  have heq : eraseOrphanOfPeer w peer s =
      (if peer ∈ e.announcers then
        if e.announcers.length = 1 then
          (eraseTx w (worksetState w peer s)).2
        else
          { worksetState w peer s with
            m_orphans := aupdate w (dropAnnouncer peer e) s.m_orphans }
      else worksetState w peer s) := by
    unfold eraseOrphanOfPeer
    rw [hm]
  have hws : (eraseOrphanOfPeer w peer s).m_peer_work_set =
      worksetErase w peer s.m_peer_work_set := by
    rw [heq]
    by_cases han : peer ∈ e.announcers
    · rw [if_pos han]
      by_cases hlen : e.announcers.length = 1
      · rw [if_pos hlen]
        rw [eraseTx_workset]
        rfl
      · rw [if_neg hlen]
        rfl
    · rw [if_neg han]
      rfl
  refine ⟨⟨?_, ?_, ?_⟩, ?_, ?_, ?_⟩
  · intro ws hwsl
    rw [hws]
    unfold worksetErase
    rw [hwsl]
    show alookup peer (aupdate peer (ws.erase w) s.m_peer_work_set) = _
    rw [alookup_aupdate_self, hwsl]
    rfl
  · intro hwsl
    rw [hws]
    unfold worksetErase
    rw [hwsl]
    exact hwsl
  · intro q hq
    rw [hws]
    unfold worksetErase
    cases hwsl : alookup peer s.m_peer_work_set with
    | some ws => exact alookup_aupdate_ne _ _ _ _ hq
    | none => rfl
  · intro han hlen
    rw [heq, if_pos han, if_pos hlen]
    exact eraseTx_lookup_self w _
  · intro han hlen
    rw [heq, if_pos han, if_neg hlen]
    show alookup w (aupdate w (dropAnnouncer peer e) s.m_orphans) = _
    rw [alookup_aupdate_self, hm]
    rfl
  · intro han
    rw [heq, if_neg han]
    rfl

/-! ### The expiry sweep of LimitOrphans (C4) -/

theorem eraseTx_eq_swap_nil {w : Nat} {s : OrphState} {e : OrphanTx}
    (hm : alookup w s.m_orphans = some e)
    (hl : e.list_pos + 1 ≠ s.m_orphan_list.length)
    (hlast : s.m_orphan_list.getLast? = none) :
    eraseTx w s = (1, { s with
      m_orphans := aerase w s.m_orphans,
      m_orphan_list := s.m_orphan_list.dropLast,
      m_outpoint_to_orphan_it :=
        e.tx.vin.foldl (fun acc op => outErase op w acc) s.m_outpoint_to_orphan_it }) := by
  unfold eraseTx
  rw [hm]
  simp [hl, hlast]

theorem eraseTx_length_le (w : Nat) (s : OrphState) :
    (eraseTx w s).2.m_orphans.length ≤ s.m_orphans.length := by
  cases hm : alookup w s.m_orphans with
  | none =>
      rw [eraseTx_eq_of_none hm]
  | some e =>
      by_cases hl : e.list_pos + 1 = s.m_orphan_list.length
      · rw [eraseTx_eq_last hm hl]
        exact List.length_filter_le _ _
      · cases hlast : s.m_orphan_list.getLast? with
        | some lastW =>
            rw [eraseTx_eq_swap hm hl hlast]
            calc (aerase w (amodify lastW (setPos e.list_pos) s.m_orphans)).length
                ≤ (amodify lastW (setPos e.list_pos) s.m_orphans).length :=
                  List.length_filter_le _ _
              _ = s.m_orphans.length := length_amodify _ _ _
        | none =>
            rw [eraseTx_eq_swap_nil hm hl hlast]
            exact List.length_filter_le _ _

/-- The wtxids of the entries of `l` that are expired at `now`
(the return value of the expiry sweep). -/
def expiredOf (now : Nat) (l : List (Nat × OrphanTx)) : List Nat :=
  (l.filter (fun p => decide (p.2.nTimeExpire ≤ now))).map Prod.fst

/-- The minimum expiry among surviving entries, capped at
`now + ORPHAN_TX_EXPIRE_TIME - ORPHAN_TX_EXPIRE_INTERVAL` (the starting
value of the running minimum in the source). -/
def minSurvExpire (now : Nat) (l : List (Nat × OrphanTx)) : Nat :=
  (l.filter (fun p => !decide (p.2.nTimeExpire ≤ now))).foldl
    (fun a p => min p.2.nTimeExpire a)
    (now + ORPHAN_TX_EXPIRE_TIME - ORPHAN_TX_EXPIRE_INTERVAL)

theorem isSome_map {α β : Type} (f : α → β) (x : Option α) :
    (x.map f).isSome = x.isSome := by
  cases x <;> rfl

theorem sweepFold_spec (now : Nat) :
    ∀ (l : List (Nat × OrphanTx)) (ret : List Nat) (mn : Nat) (st : OrphState),
      (List.foldl (sweepStep now) (ret, mn, st) l).1 = ret ++ expiredOf now l ∧
      (List.foldl (sweepStep now) (ret, mn, st) l).2.1 =
        (l.filter (fun p => !decide (p.2.nTimeExpire ≤ now))).foldl
          (fun a p => min p.2.nTimeExpire a) mn ∧
      (∀ w, (alookup w (List.foldl (sweepStep now) (ret, mn, st) l).2.2.m_orphans).isSome ↔
        ((alookup w st.m_orphans).isSome ∧ w ∉ expiredOf now l)) ∧
      (List.foldl (sweepStep now) (ret, mn, st) l).2.2.m_orphans.length ≤
        st.m_orphans.length := by
  intro l
  induction l with
  | nil =>
      intro ret mn st
      refine ⟨by simp [expiredOf], rfl, ?_, le_refl _⟩
      intro w
      simp [expiredOf]
  | cons p rest ih =>
      intro ret mn st
      rw [List.foldl_cons]
      by_cases hexp : p.2.nTimeExpire ≤ now
      · have hstep : sweepStep now (ret, mn, st) p =
            (ret ++ [p.1], mn, (eraseTx p.1 st).2) := by
          unfold sweepStep
          rw [if_pos hexp]
        rw [hstep]
        obtain ⟨ih1, ih2, ih3, ih4⟩ := ih (ret ++ [p.1]) mn (eraseTx p.1 st).2
        have hexpl : expiredOf now (p :: rest) = p.1 :: expiredOf now rest := by
          unfold expiredOf
          rw [List.filter_cons, if_pos (by simpa using hexp)]
          rfl
        have hsurvl : (p :: rest).filter (fun p => !decide (p.2.nTimeExpire ≤ now)) =
            rest.filter (fun p => !decide (p.2.nTimeExpire ≤ now)) := by
          rw [List.filter_cons, if_neg (by simpa using hexp)]
        refine ⟨?_, ?_, ?_, ?_⟩
        · rw [ih1, hexpl]
          simp
        · rw [ih2, hsurvl]
        · intro w
          rw [ih3, hexpl]
          by_cases hw : w = p.1
          · subst hw
            rw [eraseTx_lookup_self]
            simp
          · have hne := eraseTx_lookup_ne p.1 w st hw
            have hiso : (alookup w (eraseTx p.1 st).2.m_orphans).isSome =
                (alookup w st.m_orphans).isSome := by
              rw [← isSome_map entryView (alookup w (eraseTx p.1 st).2.m_orphans),
                ← isSome_map entryView (alookup w st.m_orphans), hne]
            rw [hiso]
            simp [hw]
        · calc (List.foldl (sweepStep now) (ret ++ [p.1], mn, (eraseTx p.1 st).2)
                rest).2.2.m_orphans.length
              ≤ (eraseTx p.1 st).2.m_orphans.length := ih4
            _ ≤ st.m_orphans.length := eraseTx_length_le p.1 st
      · have hstep : sweepStep now (ret, mn, st) p =
            (ret, min p.2.nTimeExpire mn, st) := by
          unfold sweepStep
          rw [if_neg hexp]
        rw [hstep]
        obtain ⟨ih1, ih2, ih3, ih4⟩ := ih ret (min p.2.nTimeExpire mn) st
        have hexpl : expiredOf now (p :: rest) = expiredOf now rest := by
          unfold expiredOf
          rw [List.filter_cons, if_neg (by simpa using hexp)]
        have hsurvl : (p :: rest).filter (fun p => !decide (p.2.nTimeExpire ≤ now)) =
            p :: rest.filter (fun p => !decide (p.2.nTimeExpire ≤ now)) := by
          rw [List.filter_cons, if_pos (by simpa using hexp)]
        refine ⟨?_, ?_, ?_, ih4⟩
        · rw [ih1, hexpl]
        · rw [ih2, hsurvl, List.foldl_cons]
        · intro w
          rw [ih3, hexpl]

theorem evictLoop_noop (fuel : Nat) (rng : List Nat) (maxO : Nat) (st : OrphState)
    (hle : st.m_orphans.length ≤ maxO) : evictLoop fuel rng maxO st = ([], st) := by
  cases fuel with
  | zero => rfl
  | succ f =>
      unfold evictLoop
      rw [if_neg (by omega)]

theorem sweepPhase_ret {s : OrphState} {now : Nat} (hsw : s.m_next_sweep ≤ now) :
    (sweepPhase now s).1 = expiredOf now s.m_orphans := by
  unfold sweepPhase
  rw [if_pos hsw]
  have h1 := (sweepFold_spec now s.m_orphans []
    (now + ORPHAN_TX_EXPIRE_TIME - ORPHAN_TX_EXPIRE_INTERVAL) s).1
  simpa using h1

theorem sweepPhase_lookup {s : OrphState} {now : Nat} (hsw : s.m_next_sweep ≤ now) (w : Nat) :
    (alookup w (sweepPhase now s).2.m_orphans).isSome ↔
      ((alookup w s.m_orphans).isSome ∧ w ∉ expiredOf now s.m_orphans) := by
  unfold sweepPhase
  rw [if_pos hsw]
  exact (sweepFold_spec now s.m_orphans []
    (now + ORPHAN_TX_EXPIRE_TIME - ORPHAN_TX_EXPIRE_INTERVAL) s).2.2.1 w

theorem sweepPhase_next {s : OrphState} {now : Nat} (hsw : s.m_next_sweep ≤ now) :
    (sweepPhase now s).2.m_next_sweep =
      minSurvExpire now s.m_orphans + ORPHAN_TX_EXPIRE_INTERVAL := by
  unfold sweepPhase
  rw [if_pos hsw]
  have h2 := (sweepFold_spec now s.m_orphans []
    (now + ORPHAN_TX_EXPIRE_TIME - ORPHAN_TX_EXPIRE_INTERVAL) s).2.1
  show (s.m_orphans.foldl (sweepStep now)
    ([], now + ORPHAN_TX_EXPIRE_TIME - ORPHAN_TX_EXPIRE_INTERVAL, s)).2.1 +
      ORPHAN_TX_EXPIRE_INTERVAL = _
  rw [h2]
  rfl

theorem sweepPhase_len_le (s : OrphState) (now : Nat) :
    (sweepPhase now s).2.m_orphans.length ≤ s.m_orphans.length := by
  unfold sweepPhase
  by_cases hsw : s.m_next_sweep ≤ now
  · rw [if_pos hsw]
    exact (sweepFold_spec now s.m_orphans []
      (now + ORPHAN_TX_EXPIRE_TIME - ORPHAN_TX_EXPIRE_INTERVAL) s).2.2.2
  · rw [if_neg hsw]

/-- C4 (amended): when `m_next_sweep ≤ now` and the orphanage is within its
budget (so random eviction does nothing), LimitOrphans returns exactly the
wtxids of the expired entries, the survivors are exactly the entries with
expiry after `now`, and the new `m_next_sweep` is the minimum surviving
expiry, capped at `now + ORPHAN_TX_EXPIRE_TIME − ORPHAN_TX_EXPIRE_INTERVAL`,
plus `ORPHAN_TX_EXPIRE_INTERVAL`. -/
theorem limitOrphans_sweep_spec {s : OrphState} (h : Wf s) (maxO : Nat) (rng : List Nat)
    (now : Nat) (hsw : s.m_next_sweep ≤ now) (hmax : s.m_orphans.length ≤ maxO) :
    (limitOrphans maxO rng now s).1 = expiredOf now s.m_orphans ∧
    (∀ w, (alookup w (limitOrphans maxO rng now s).2.m_orphans).isSome ↔
      ∃ p ∈ s.m_orphans, p.1 = w ∧ now < p.2.nTimeExpire) ∧
    (limitOrphans maxO rng now s).2.m_next_sweep =
      minSurvExpire now s.m_orphans + ORPHAN_TX_EXPIRE_INTERVAL := by
  have hiff : ∀ w, ((alookup w s.m_orphans).isSome ∧ w ∉ expiredOf now s.m_orphans) ↔
      ∃ p ∈ s.m_orphans, p.1 = w ∧ now < p.2.nTimeExpire := by
    intro w
    constructor
    · rintro ⟨hsome, hnot⟩
      obtain ⟨e, he⟩ := Option.isSome_iff_exists.mp hsome
      refine ⟨(w, e), alookup_some_mem he, rfl, ?_⟩
      by_contra hc
      push_neg at hc
      apply hnot
      unfold expiredOf
      refine List.mem_map.mpr ⟨(w, e), ?_, rfl⟩
      rw [List.mem_filter]
      exact ⟨alookup_some_mem he, by simpa using hc⟩
    · rintro ⟨p, hp, rfl, hsurv⟩
      constructor
      · rw [mem_alookup_of_nodup h.keysNodup (show (p.1, p.2) ∈ _ by simpa using hp)]
        rfl
      · intro hc
        unfold expiredOf at hc
        obtain ⟨q, hq, hq1⟩ := List.mem_map.mp hc
        rw [List.mem_filter] at hq
        have hq2 : q.2 = p.2 := by
          have hlq := mem_alookup_of_nodup h.keysNodup
            (show (q.1, q.2) ∈ _ by simpa using hq.1)
          have hlp := mem_alookup_of_nodup h.keysNodup
            (show (p.1, p.2) ∈ _ by simpa using hp)
          rw [hq1] at hlq
          rw [hlq] at hlp
          injection hlp with h3
        have hqexp : q.2.nTimeExpire ≤ now := by simpa using hq.2
        rw [hq2] at hqexp
        omega
  have hlen := sweepPhase_len_le s now
  have hnoev := evictLoop_noop ((sweepPhase now s).2.m_orphans.length) rng maxO
    (sweepPhase now s).2 (le_trans hlen hmax)
  have hlim : limitOrphans maxO rng now s = ((sweepPhase now s).1, (sweepPhase now s).2) := by
    show ((sweepPhase now s).1 ++
        (evictLoop (sweepPhase now s).2.m_orphans.length rng maxO (sweepPhase now s).2).1,
      (evictLoop (sweepPhase now s).2.m_orphans.length rng maxO (sweepPhase now s).2).2) = _
    rw [hnoev]
    simp
  rw [hlim]
  exact ⟨sweepPhase_ret hsw, fun w => (sweepPhase_lookup hsw w).trans (hiff w),
    sweepPhase_next hsw⟩

/-! ### EraseForBlock (C10) -/

/-- The live entry `w` spends outpoint `op` (Boolean form of `liveSpend`). -/
def spends (s : OrphState) (w : Nat) (op : OutPoint) : Bool :=
  match alookup w s.m_orphans with
  | some e => decide (op ∈ e.tx.vin)
  | none => false

theorem spends_iff {s : OrphState} {w : Nat} {op : OutPoint} :
    spends s w op = true ↔ liveSpend w op s := by
  unfold spends liveSpend
  cases hm : alookup w s.m_orphans with
  | some e => simp
  | none => simp

theorem count_flatMap_nat {α : Type} (w : Nat) (l : List α) (f : α → List Nat) :
    ((l.flatMap f).count w) = (l.map (fun x => (f x).count w)).sum := by
  induction l with
  | nil => rfl
  | cons x xs ih =>
      rw [List.flatMap_cons, List.count_append, ih]
      simp

theorem sum_map_ite_length {α : Type} (l : List α) (p : α → Bool) :
    (l.map (fun x => if p x then 1 else 0)).sum = (l.filter p).length := by
  induction l with
  | nil => rfl
  | cons x xs ih =>
      rw [List.map_cons, List.sum_cons, ih, List.filter_cons]
      by_cases hp : p x
      · rw [if_pos hp, if_pos hp]
        simp only [List.length_cons]
        omega
      · rw [if_neg hp, if_neg hp]
        simp

theorem foldErase_lookup_none {w : Nat} :
    ∀ (ws : List Nat) (st : OrphState), alookup w st.m_orphans = none →
      alookup w ((ws.foldl (fun acc x => (eraseTx x acc).2) st)).m_orphans = none := by
  intro ws
  induction ws with
  | nil =>
      intro st hm
      exact hm
  | cons x xs ih =>
      intro st hm
      rw [List.foldl_cons]
      apply ih
      by_cases hx : w = x
      · subst hx
        exact eraseTx_lookup_self w st
      · have hne := eraseTx_lookup_ne x w st hx
        rw [hm] at hne
        cases he : alookup w (eraseTx x st).2.m_orphans with
        | none => rfl
        | some e2 =>
            rw [he] at hne
            simp at hne

theorem foldErase_mem_none {w : Nat} :
    ∀ (ws : List Nat) (st : OrphState), w ∈ ws →
      alookup w ((ws.foldl (fun acc x => (eraseTx x acc).2) st)).m_orphans = none := by
  intro ws
  induction ws with
  | nil =>
      intro st hmem
      cases hmem
  | cons x xs ih =>
      intro st hmem
      rw [List.foldl_cons]
      by_cases hx : w = x
      · subst hx
        exact foldErase_lookup_none xs _ (eraseTx_lookup_self w st)
      · exact ih _ (by simpa [hx] using hmem)

theorem foldErase_lookup_notmem {w : Nat} :
    ∀ (ws : List Nat) (st : OrphState), w ∉ ws →
      (alookup w ((ws.foldl (fun acc x => (eraseTx x acc).2) st)).m_orphans).map entryView =
        (alookup w st.m_orphans).map entryView := by
  intro ws
  induction ws with
  | nil =>
      intro st _
      rfl
  | cons x xs ih =>
      intro st hmem
      rw [List.foldl_cons]
      have hx : w ≠ x := fun hc => hmem (hc ▸ List.mem_cons_self x xs)
      have hxs : w ∉ xs := fun hc => hmem (List.mem_cons_of_mem x hc)
      rw [ih _ hxs]
      exact eraseTx_lookup_ne x w st hx

/-- C10: EraseForBlock returns one wtxid occurrence per (block input,
spending orphan) pair — each wtxid `w` appears exactly as many times as
there are input occurrences in the block whose prevout `w` spends — and
afterwards no live entry spends any outpoint spent by the block. -/
theorem eraseForBlock_spec {s : OrphState} (h : Wf s) (block : List Tx) :
    (∀ w, ((eraseForBlock block s).1).count w =
      ((blockInputs block).filter (fun op => spends s w op)).length) ∧
    (∀ w e, alookup w (eraseForBlock block s).2.m_orphans = some e →
      ∀ op ∈ e.tx.vin, op ∉ blockInputs block) := by
  have hgather : ∀ w, (((blockInputs block).flatMap
      (fun op => ((alookup op s.m_outpoint_to_orphan_it).getD []))).count w) =
      ((blockInputs block).filter (fun op => spends s w op)).length := by
    intro w
    rw [count_flatMap_nat]
    rw [← sum_map_ite_length (blockInputs block) (fun op => spends s w op)]
    congr 1
    apply List.map_congr_left
    intro op hop
    cases hm : alookup op s.m_outpoint_to_orphan_it with
    | none =>
        have hns : spends s w op = false := by
          rw [← Bool.not_eq_true]
          intro hc
          obtain ⟨ws, hws, hmem⟩ := (wf_out_iff h op w).mpr (spends_iff.mp hc)
          rw [hm] at hws
          cases hws
        rw [hns]
        rfl
    | some ws =>
        have hnd : ws.Nodup := h.outValsNodup (op, ws) (alookup_some_mem hm)
        simp only [Option.getD_some]
        by_cases hmem : w ∈ ws
        · have hsp : spends s w op = true := by
            rw [spends_iff]
            exact (wf_out_iff h op w).mp ⟨ws, hm, hmem⟩
          rw [hsp, if_pos rfl]
          exact List.count_eq_one_of_mem hnd hmem
        · have hsp : spends s w op = false := by
            rw [← Bool.not_eq_true]
            intro hc
            obtain ⟨ws2, hws2, hmem2⟩ := (wf_out_iff h op w).mpr (spends_iff.mp hc)
            rw [hm] at hws2
            injection hws2 with hws3
            exact hmem (hws3 ▸ hmem2)
          rw [hsp]
          simpa using List.count_eq_zero.mpr hmem
  constructor
  · intro w
    exact hgather w
  · intro w e hlook op hvin hblk
    have hlook2 : alookup w ((((blockInputs block).flatMap
        (fun op => ((alookup op s.m_outpoint_to_orphan_it).getD []))).foldl
          (fun acc x => (eraseTx x acc).2) s)).m_orphans = some e := hlook
    have hwerase : w ∈ (blockInputs block).flatMap
        (fun op => ((alookup op s.m_outpoint_to_orphan_it).getD [])) := by
      have hls : liveSpend w op s := by
        by_cases hmem : w ∈ (blockInputs block).flatMap
            (fun op => ((alookup op s.m_outpoint_to_orphan_it).getD []))
        · exact absurd (foldErase_mem_none _ s hmem) (by rw [hlook2]; simp)
        · have hview := foldErase_lookup_notmem _ s hmem
          rw [hlook2] at hview
          cases hst : alookup w s.m_orphans with
          | none =>
              rw [hst] at hview
              cases hview
          | some e0 =>
              rw [hst] at hview
              injection hview with hview2
              refine ⟨e0, hst, ?_⟩
              have htx : e.tx = e0.tx := by
                have := congrArg Prod.fst hview2
                simpa [entryView] using this
              rw [← htx]
              exact hvin
      obtain ⟨ws, hws, hmem⟩ := (wf_out_iff h op w).mpr hls
      exact List.mem_flatMap.mpr ⟨op, hblk, by rw [hws]; simpa using hmem⟩
    exact absurd (foldErase_mem_none _ s hwerase) (by rw [hlook2]; simp)

/-! ### Concrete orphanage fixtures for witnesses and counterexamples -/

def txA : Tx := { txid := 1, wtxid := 10, vin := [⟨5, 0⟩], vout := 1, weight := 100 }

def txB : Tx := { txid := 2, wtxid := 20, vin := [⟨6, 0⟩], vout := 1, weight := 200 }

/-- One orphan, announced by peer 7 at time 50 (expiry 1250). -/
def stA : OrphState := (addTx txA 7 [5] 50 emptyOrph).2

/-- Two orphans, added at times 50 and 60 (expiries 1250 and 1260). -/
def stB : OrphState := (addTx txB 8 [6] 60 stA).2

/-- A block spending outpoint (5,0), which orphan `txA` also spends. -/
def blockB : List Tx := [{ txid := 5, wtxid := 99, vin := [⟨5, 0⟩], vout := 1, weight := 10 }]

/-- C4 counterexample: the original claim fails on the code in two ways.
At `stA` with `now = 300` the sole survivor expires at 1250, yet the next
sweep is scheduled from the capped minimum `min 1250 (300 + 1200 - 300)`,
so `m_next_sweep ≠ 1250 + ORPHAN_TX_EXPIRE_INTERVAL`.  At `stB` with
`maxOrphans = 1` the call also erases (by random eviction) entry 10, whose
expiry 1250 is after `now = 70`. -/
theorem limitOrphans_nextSweep_cex :
    stA.m_next_sweep ≤ 300 ∧
    (∀ p ∈ ((limitOrphans 5 [] 300 stA).2).m_orphans, p.2.nTimeExpire = 1250) ∧
    ((limitOrphans 5 [] 300 stA).2).m_orphans.length = 1 ∧
    ((limitOrphans 5 [] 300 stA).2).m_next_sweep ≠ 1250 + ORPHAN_TX_EXPIRE_INTERVAL ∧
    stB.m_next_sweep ≤ 70 ∧
    (limitOrphans 1 [0] 70 stB).1 = [10] ∧
    (∀ p ∈ stB.m_orphans, 70 < p.2.nTimeExpire) := by
  decide

/-- Witness for the amended C4 theorem at a concrete input. -/
theorem limitOrphans_sweep_spec_witness :
    (Wf stB ∧ stB.m_next_sweep ≤ 2000 ∧ stB.m_orphans.length ≤ 5) ∧
    ((limitOrphans 5 [] 2000 stB).1 = expiredOf 2000 stB.m_orphans ∧
      (∀ w, (alookup w (limitOrphans 5 [] 2000 stB).2.m_orphans).isSome ↔
        ∃ p ∈ stB.m_orphans, p.1 = w ∧ 2000 < p.2.nTimeExpire) ∧
      (limitOrphans 5 [] 2000 stB).2.m_next_sweep =
        minSurvExpire 2000 stB.m_orphans + ORPHAN_TX_EXPIRE_INTERVAL) :=
  ⟨⟨by decide, by decide, by decide⟩,
    limitOrphans_sweep_spec (by decide) 5 [] 2000 (by decide) (by decide)⟩

/-- Witness for the C10 theorem at a concrete input. -/
theorem eraseForBlock_spec_witness :
    Wf stB ∧
    ((∀ w, ((eraseForBlock blockB stB).1).count w =
      ((blockInputs blockB).filter (fun op => spends stB w op)).length) ∧
    (∀ w e, alookup w (eraseForBlock blockB stB).2.m_orphans = some e →
      ∀ op ∈ e.tx.vin, op ∉ blockInputs blockB)) :=
  ⟨by decide, eraseForBlock_spec (by decide) blockB⟩

/-! ## Spork manager data model (spork.cpp)

Key ids are `Nat`; spork ids, values and times are `Int` (int32 / int64).
Cryptographic primitives are external collaborators (spec §1, §6): a
compact recoverable ECDSA signature over a message determines a unique
signer key, so a signature is modelled as the key id it recovers to. -/

/-- CSporkMessage.  `vchSig` is modelled from the spec (§6 CryptoSigner):
the key id the compact signature recovers to, `none` when recovery fails. -/
structure SporkMessage where
  nSporkID : Int
  nValue : Int
  nTimeSigned : Int
  vchSig : Option Nat
deriving DecidableEq

/-- CSporkMessage::GetSignerKeyID.  Modelled from the spec:
`RecoverCompact` over `GetSignatureHash()` followed by `GetID()`. -/
def getSignerKeyID (m : SporkMessage) : Option Nat := m.vchSig

/-- CSporkMessage::CheckSignature.  Modelled from the spec:
`CHashSigner::VerifyHash` succeeds exactly for the key the compact
signature recovers to. -/
def checkSignature (m : SporkMessage) (k : Nat) : Bool := m.vchSig = some k

/-- CSporkManager state.  `mapSporksByHash` is keyed by `GetHash()`;
hashing is modelled as injective, so the map is carried as its value set. -/
structure SporkState where
  mapSporksActive : List (Int × List (Nat × SporkMessage))
  mapSporksByHash : List SporkMessage
  setSporkPubKeyIDs : List Nat
  nMinSporkKeys : Int
  sporkPrivKey : Option Nat
  mapSporksCachedValues : List (Int × Int)
  mapSporksCachedActive : List (Int × Bool)
deriving DecidableEq

/-- `mapSporksActive[sporkID][keyIDSigner] = spork`. -/
def activeInsert (id : Int) (k : Nat) (msg : SporkMessage)
    (m : List (Int × List (Nat × SporkMessage))) :
    List (Int × List (Nat × SporkMessage)) :=
  match alookup id m with
  | some inner => aupdate id (ainsert k msg inner) m
  | none => m ++ [(id, [(k, msg)])]

/-- The store-and-invalidate block shared by ProcessSpork and UpdateSpork:
`mapSporksByHash[hash] = spork; mapSporksActive[id][signer] = spork;`
then erase the cached entries for this spork id. -/
def installSpork (msg : SporkMessage) (k : Nat) (st : SporkState) : SporkState :=
  { st with
    mapSporksByHash := insertSet msg st.mapSporksByHash,
    mapSporksActive := activeInsert msg.nSporkID k msg st.mapSporksActive,
    mapSporksCachedActive := aerase msg.nSporkID st.mapSporksCachedActive,
    mapSporksCachedValues := aerase msg.nSporkID st.mapSporksCachedValues }

/-- Peer-visible effects of ProcessSpork: the misbehaviour score assigned
to the sender (if any) and whether the spork was relayed. -/
structure SporkEffects where
  score : Option Nat
  relayed : Bool
deriving DecidableEq

/-- The stored-message comparison of ProcessSpork: the incoming message is
`seen` when the stored message for `(sporkID, signer)` has
`nTimeSigned >= ` the incoming one. -/
def seenCheck (msg : SporkMessage) (k : Nat) (st : SporkState) : Bool :=
  match alookup msg.nSporkID st.mapSporksActive with
  | some inner =>
      match alookup k inner with
      | some stored => decide (msg.nTimeSigned ≤ stored.nTimeSigned)
      | none => false
  | none => false

/-- CSporkManager::ProcessSpork.  `hasPeerRef` models
`peerman.GetPeerRef(pfrom->GetId())` being non-null (`Misbehaving` is only
called through a live peer ref); `now` models `GetAdjustedTime()`. -/
def processSpork (hasPeerRef : Bool) (now : Int) (msg : SporkMessage) (st : SporkState) :
    SporkState × SporkEffects :=
  if msg.nTimeSigned > now + 2 * 60 * 60 then
    (st, { score := if hasPeerRef then some 100 else none, relayed := false })
  else
    match getSignerKeyID msg with
    | none => (st, { score := if hasPeerRef then some 100 else none, relayed := false })
    | some k =>
        if k ∈ st.setSporkPubKeyIDs then
          if seenCheck msg k st then
            (st, { score := none, relayed := false })
          else
            (installSpork msg k st, { score := none, relayed := true })
        else
          (st, { score := if hasPeerRef then some 100 else none, relayed := false })

/-- CSporkManager::UpdateSpork.  `now` models `GetAdjustedTime()`; signing
with the stored private key yields a signature recovering to that key, and
signing fails when no valid key is set. -/
def updateSpork (id : Int) (value : Int) (now : Int) (st : SporkState) :
    Bool × SporkState :=
  match st.sporkPrivKey with
  | none => (false, st)
  | some kpriv =>
      match getSignerKeyID
          { nSporkID := id, nValue := value, nTimeSigned := now, vchSig := some kpriv } with
      | none => (false, st)
      | some k =>
          if k ∈ st.setSporkPubKeyIDs then
            (true, installSpork
              { nSporkID := id, nValue := value, nTimeSigned := now, vchSig := some kpriv }
              k st)
          else
            (false, st)

/-- `mapValueCounts[nValue]++` (operator[] default-initialises to 0). -/
def bumpCount (v : Int) (counts : List (Int × Int)) : List (Int × Int) :=
  match alookup v counts with
  | some c => aupdate v (c + 1) counts
  | none => counts ++ [(v, 1)]

/-- `mapValueCounts.at(v)` after the bump. -/
def countOf (v : Int) (counts : List (Int × Int)) : Int :=
  (alookup v counts).getD 0

/-- The counting loop of SporkValueIsActive: bump the count of each
signer's value in turn and stop at the first value whose count reaches
`nMinSporkKeys`. -/
def countLoop (thr : Int) : List (Nat × SporkMessage) → List (Int × Int) → Option Int
  | [], _ => none
  | p :: rest, counts =>
      if thr ≤ countOf p.2.nValue (bumpCount p.2.nValue counts) then
        some p.2.nValue
      else
        countLoop thr rest (bumpCount p.2.nValue counts)

/-- The uncached tail of SporkValueIsActive: run the counting loop and
memoize a winner into `mapSporksCachedValues`. -/
def countResult (id : Int) (inner : List (Nat × SporkMessage)) (st : SporkState) :
    Option Int × SporkState :=
  match countLoop st.nMinSporkKeys inner [] with
  | some v =>
      (some v, { st with mapSporksCachedValues := ainsert id v st.mapSporksCachedValues })
  | none => (none, st)

/-- CSporkManager::SporkValueIsActive: `false` when the spork id has no
signers; otherwise consult `mapSporksCachedValues` and fall back to the
counting loop, memoizing a winner. -/
def sporkValueIsActive (id : Int) (st : SporkState) : Option Int × SporkState :=
  match alookup id st.mapSporksActive with
  | none => (none, st)
  | some inner =>
      match alookup id st.mapSporksCachedValues with
      | some v => (some v, st)
      | none => countResult id inner st

/-- Modelled from the spec: the compile-time defaults table `sporkDefs`
lives in spork.h (not under src/); the claims do not depend on its
contents, only on its lookup shape. -/
def sporkDefs : List (Int × Int) := [(10001, 4070908800)]

/-- CSporkManager::GetSporkValue: active value, else default, else -1. -/
def getSporkValue (id : Int) (st : SporkState) : Int × SporkState :=
  match sporkValueIsActive id st with
  | (some v, st2) => (v, st2)
  | (none, st2) =>
      match alookup id sporkDefs with
      | some d => (d, st2)
      | none => (-1, st2)

/-- CSporkManager::IsSporkActive: `GetSporkValue < now`, memoizing only
`true` into `mapSporksCachedActive`. -/
def isSporkActive (id : Int) (now : Int) (st : SporkState) : Bool × SporkState :=
  match alookup id st.mapSporksCachedActive with
  | some true => (true, st)
  | _ =>
      if (getSporkValue id st).1 < now then
        (true, { (getSporkValue id st).2 with
          mapSporksCachedActive := ainsert id true (getSporkValue id st).2.mapSporksCachedActive })
      else
        (false, (getSporkValue id st).2)

/-- The per-entry keep condition of CheckAndRemove's first loop: signer
still authorised and signature valid for that signer. -/
def keepSporkEntry (auth : List Nat) (p : Nat × SporkMessage) : Bool :=
  decide (p.1 ∈ auth) && checkSignature p.2 p.1

/-- CSporkManager::CheckAndRemove.  `none` models the `assert`
(`!setSporkPubKeyIDs.empty()`) aborting the process. -/
def checkAndRemove (st : SporkState) : Option SporkState :=
  if st.setSporkPubKeyIDs = [] then
    none
  else
    some { st with
      mapSporksActive :=
        (st.mapSporksActive.map
          (fun q => (q.1, q.2.filter (keepSporkEntry st.setSporkPubKeyIDs)))).filter
          (fun q => !q.2.isEmpty),
      mapSporksByHash :=
        (st.mapSporksByHash.filter (fun m =>
          !decide (m ∈ st.mapSporksActive.flatMap
            (fun q => (q.2.filter
              (fun p => !keepSporkEntry st.setSporkPubKeyIDs p)).map Prod.snd)))).filter
          (fun m => st.setSporkPubKeyIDs.any (fun k => checkSignature m k)) }

/-- CSporkManager::Clear: empties the spork maps; the cached-value maps
and the key configuration are not touched. -/
def clear (st : SporkState) : SporkState :=
  { st with mapSporksActive := [], mapSporksByHash := [] }

/-- CSporkManager::SetSporkAddress; address decoding is an external
collaborator, so the parameter is the decoded single-key-hash id
(`none` when decoding leaves the key id null). -/
def setSporkAddress (keyID : Option Nat) (st : SporkState) : Bool × SporkState :=
  match keyID with
  | none => (false, st)
  | some k => (true, { st with setSporkPubKeyIDs := insertSet k st.setSporkPubKeyIDs })

/-- CSporkManager::SetMinSporkKeys: accept only
`|authorized|/2 < n ≤ |authorized|`. -/
def setMinSporkKeys (n : Int) (st : SporkState) : Bool × SporkState :=
  if n ≤ (st.setSporkPubKeyIDs.length : Int) / 2 ∨
      n > (st.setSporkPubKeyIDs.length : Int) then
    (false, st)
  else
    (true, { st with nMinSporkKeys := n })

/-- CSporkManager::SetPrivKey; secret parsing is an external collaborator,
so the parameter is the parsed key's id (`none` on parse failure).  The
key must belong to an authorised spork address. -/
def setPrivKey (keyID : Option Nat) (st : SporkState) : Bool × SporkState :=
  match keyID with
  | none => (false, st)
  | some k =>
      if k ∈ st.setSporkPubKeyIDs then
        (true, { st with sporkPrivKey := some k })
      else
        (false, st)

/-! ### Counting lemmas for SporkValueIsActive -/

/-- How many stored messages of one spork id carry value `v` (with the
per-id signer maps keyed uniquely, this is the number of distinct signers
voting `v`). -/
def countValueEntries (v : Int) (inner : List (Nat × SporkMessage)) : Int :=
  ((inner.filter (fun p => decide (p.2.nValue = v))).length : Int)

theorem countValueEntries_cons (v : Int) (p : Nat × SporkMessage)
    (rest : List (Nat × SporkMessage)) :
    countValueEntries v (p :: rest) =
      countValueEntries v rest + (if p.2.nValue = v then 1 else 0) := by
  unfold countValueEntries
  rw [List.filter_cons]
  by_cases hp : p.2.nValue = v
  · rw [if_pos (by simpa using hp), if_pos hp]
    simp only [List.length_cons]
    push_cast
    ring
  · rw [if_neg (by simpa using hp), if_neg hp]
    simp

theorem countValueEntries_nonneg (v : Int) (inner : List (Nat × SporkMessage)) :
    0 ≤ countValueEntries v inner := by
  unfold countValueEntries
  positivity

theorem countOf_bumpCount_self (v : Int) (c : List (Int × Int)) :
    countOf v (bumpCount v c) = countOf v c + 1 := by
  unfold bumpCount countOf
  cases hm : alookup v c with
  | some n =>
      rw [alookup_aupdate_self, hm]
      rfl
  | none =>
      have h1 : alookup v (c ++ [(v, (1 : Int))]) = some 1 := by
        rw [alookup_append_none _ _ _ hm]
        show (if v = v then some (1 : Int) else alookup v []) = some 1
        rw [if_pos rfl]
      rw [h1]
      decide

theorem countOf_bumpCount_ne (v v2 : Int) (c : List (Int × Int)) (hv : v ≠ v2) :
    countOf v (bumpCount v2 c) = countOf v c := by
  unfold bumpCount countOf
  cases hm : alookup v2 c with
  | some n =>
      rw [alookup_aupdate_ne _ _ _ _ hv]
  | none =>
      have h2 : alookup v [(v2, (1 : Int))] = none := by
        show (if v2 = v then some (1 : Int) else alookup v []) = none
        rw [if_neg (show ¬ v2 = v from fun hh => hv hh.symm)]
        rfl
      cases hk : alookup v c with
      | some n => rw [alookup_append_some _ _ _ _ hk]
      | none => rw [alookup_append_none _ _ _ hk, h2]

theorem countLoop_sound (thr : Int) :
    ∀ (l : List (Nat × SporkMessage)) (counts : List (Int × Int)) (v : Int),
      countLoop thr l counts = some v →
      thr ≤ countOf v counts + countValueEntries v l := by
  intro l
  induction l with
  | nil =>
      intro counts v h
      cases h
  | cons p rest ih =>
      intro counts v h
      unfold countLoop at h
      by_cases hc : thr ≤ countOf p.2.nValue (bumpCount p.2.nValue counts)
      · rw [if_pos hc] at h
        injection h with hv
        subst hv
        rw [countOf_bumpCount_self] at hc
        rw [countValueEntries_cons, if_pos rfl]
        have := countValueEntries_nonneg p.2.nValue rest
        omega
      · rw [if_neg hc] at h
        have hrec := ih _ v h
        rw [countValueEntries_cons]
        by_cases hv : v = p.2.nValue
        · subst hv
          rw [countOf_bumpCount_self] at hrec
          rw [if_pos rfl]
          omega
        · rw [countOf_bumpCount_ne _ _ _ hv] at hrec
          rw [if_neg (fun hh => hv hh.symm)]
          omega

theorem countLoop_complete (thr : Int) :
    ∀ (l : List (Nat × SporkMessage)) (counts : List (Int × Int)),
      countLoop thr l counts = none →
      ∀ v, countOf v counts < thr → countOf v counts + countValueEntries v l < thr := by
  intro l
  induction l with
  | nil =>
      intro counts _ v hlt
      unfold countValueEntries
      simpa using hlt
  | cons p rest ih =>
      intro counts h v hlt
      unfold countLoop at h
      by_cases hc : thr ≤ countOf p.2.nValue (bumpCount p.2.nValue counts)
      · rw [if_pos hc] at h
        cases h
      · rw [if_neg hc] at h
        push_neg at hc
        rw [countOf_bumpCount_self] at hc
        have hrec := ih _ h
        rw [countValueEntries_cons]
        by_cases hv : v = p.2.nValue
        · have hb : countOf v (bumpCount p.2.nValue counts) = countOf v counts + 1 := by
            rw [hv]
            exact countOf_bumpCount_self _ _
          have hcv : countOf v counts + 1 < thr := by
            rw [← hv] at hc
            exact hc
          have h2 := hrec v (by rw [hb]; omega)
          rw [hb] at h2
          rw [if_pos hv.symm]
          omega
        · have h2 := hrec v (by rw [countOf_bumpCount_ne _ _ _ hv]; exact hlt)
          rw [countOf_bumpCount_ne _ _ _ hv] at h2
          rw [if_neg (fun hh => hv hh.symm)]
          omega

/-! ### SporkValueIsActive equations and the threshold theorem (C2) -/

theorem svia_eq_noactive {id : Int} {st : SporkState}
    (hid : alookup id st.mapSporksActive = none) :
    sporkValueIsActive id st = (none, st) := by
  unfold sporkValueIsActive
  rw [hid]

theorem svia_eq_cached {id : Int} {st : SporkState}
    {inner : List (Nat × SporkMessage)} {v : Int}
    (hid : alookup id st.mapSporksActive = some inner)
    (hc : alookup id st.mapSporksCachedValues = some v) :
    sporkValueIsActive id st = (some v, st) := by
  unfold sporkValueIsActive
  rw [hid, hc]

theorem svia_eq_uncached {id : Int} {st : SporkState}
    {inner : List (Nat × SporkMessage)}
    (hid : alookup id st.mapSporksActive = some inner)
    (hc : alookup id st.mapSporksCachedValues = none) :
    sporkValueIsActive id st = countResult id inner st := by
  unfold sporkValueIsActive
  rw [hid, hc]

theorem svia_eq_count_some {id : Int} {st : SporkState}
    {inner : List (Nat × SporkMessage)} {v : Int}
    (hid : alookup id st.mapSporksActive = some inner)
    (hc : alookup id st.mapSporksCachedValues = none)
    (hcl : countLoop st.nMinSporkKeys inner [] = some v) :
    sporkValueIsActive id st =
      (some v, { st with mapSporksCachedValues := ainsert id v st.mapSporksCachedValues }) := by
  rw [svia_eq_uncached hid hc]
  unfold countResult
  rw [hcl]

theorem svia_eq_count_none {id : Int} {st : SporkState}
    {inner : List (Nat × SporkMessage)}
    (hid : alookup id st.mapSporksActive = some inner)
    (hc : alookup id st.mapSporksCachedValues = none)
    (hcl : countLoop st.nMinSporkKeys inner [] = none) :
    sporkValueIsActive id st = (none, st) := by
  rw [svia_eq_uncached hid hc]
  unfold countResult
  rw [hcl]

/-- C2: on a state whose value cache has no entry for this spork id (as in
every state reached from empty by ProcessSpork alone, which only clears
cache entries), SporkValueIsActive returns a value iff some value has at
least `nMinSporkKeys` (≥ 1) signer entries for that spork id; a returned
value itself meets the threshold, is memoized into the value cache, and is
what GetSporkValue returns. -/
theorem spork_value_threshold_spec (st : SporkState) (id : Int)
    (hthr : 1 ≤ st.nMinSporkKeys)
    (hcache : alookup id st.mapSporksCachedValues = none) :
    ((sporkValueIsActive id st).1.isSome ↔
      (∃ inner, alookup id st.mapSporksActive = some inner ∧
        ∃ v, st.nMinSporkKeys ≤ countValueEntries v inner)) ∧
    (∀ v, (sporkValueIsActive id st).1 = some v →
      (∃ inner, alookup id st.mapSporksActive = some inner ∧
        st.nMinSporkKeys ≤ countValueEntries v inner) ∧
      alookup id ((sporkValueIsActive id st).2).mapSporksCachedValues = some v ∧
      (getSporkValue id st).1 = v) := by
  cases hid : alookup id st.mapSporksActive with
  | none =>
      rw [svia_eq_noactive hid]
      constructor
      · constructor
        · intro h
          simp at h
        · rintro ⟨inner, hinner, -⟩
          cases hinner
      · intro v hv
        cases hv
  | some inner =>
      cases hcl : countLoop st.nMinSporkKeys inner [] with
      | some v0 =>
          have hs := countLoop_sound st.nMinSporkKeys inner [] v0 hcl
          have hz : countOf v0 [] = 0 := rfl
          rw [svia_eq_count_some hid hcache hcl]
          constructor
          · constructor
            · intro _
              exact ⟨inner, rfl, v0, by omega⟩
            · intro _
              simp
          · intro v hv
            injection hv with hv0
            subst hv0
            refine ⟨⟨inner, rfl, by omega⟩, ?_, ?_⟩
            · exact alookup_ainsert_self _ _ _
            · unfold getSporkValue
              rw [svia_eq_count_some hid hcache hcl]
      | none =>
          rw [svia_eq_count_none hid hcache hcl]
          constructor
          · constructor
            · intro h
              simp at h
            · rintro ⟨inner2, hinner2, v, hbound⟩
              injection hinner2 with he
              subst he
              exfalso
              have hz : countOf v [] = 0 := rfl
              have := countLoop_complete st.nMinSporkKeys inner [] hcl v (by omega)
              omega
          · intro v hv
            cases hv

/-- C7: a spork whose `nTimeSigned` exceeds `now + 2h` leaves the manager
state untouched, scores the sending peer 100 (the `Misbehaving` call runs
through the peer ref when it exists), and is not relayed. -/
theorem processSpork_skew_spec (ref : Bool) (now : Int) (msg : SporkMessage)
    (st : SporkState) (h : msg.nTimeSigned > now + 2 * 60 * 60) :
    processSpork ref now msg st =
      (st, { score := if ref then some 100 else none, relayed := false }) := by
  unfold processSpork
  rw [if_pos h]

/-- C9: CheckAndRemove returns normally iff at least one authorised signer
key is configured; with an empty authorised set the entry `assert` aborts
the process (modelled as `none`). -/
theorem checkAndRemove_assert_spec (st : SporkState) :
    ((checkAndRemove st).isSome ↔ st.setSporkPubKeyIDs ≠ []) ∧
    (st.setSporkPubKeyIDs = [] → checkAndRemove st = none) := by
  unfold checkAndRemove
  by_cases he : st.setSporkPubKeyIDs = []
  · rw [if_pos he]
    constructor
    · simp [he]
    · intro _
      rfl
  · rw [if_neg he]
    constructor
    · simp [he]
    · intro hc
      exact absurd hc he

/-! ### ProcessSpork / UpdateSpork branch equations and monotonicity (C5) -/

theorem activeInsert_lookup_self_some {id : Int} {k : Nat} {msg : SporkMessage}
    {m : List (Int × List (Nat × SporkMessage))} {inner : List (Nat × SporkMessage)}
    (hm : alookup id m = some inner) :
    alookup id (activeInsert id k msg m) = some (ainsert k msg inner) := by
  unfold activeInsert
  rw [hm, alookup_aupdate_self, hm]
  rfl

theorem activeInsert_lookup_self_none {id : Int} {k : Nat} {msg : SporkMessage}
    {m : List (Int × List (Nat × SporkMessage))}
    (hm : alookup id m = none) :
    alookup id (activeInsert id k msg m) = some [(k, msg)] := by
  unfold activeInsert
  rw [hm, alookup_append_none _ _ _ hm]
  show (if id = id then some [(k, msg)] else alookup id []) = some [(k, msg)]
  rw [if_pos rfl]

theorem activeInsert_lookup_ne {id id2 : Int} {k : Nat} {msg : SporkMessage}
    {m : List (Int × List (Nat × SporkMessage))} (hne : id2 ≠ id) :
    alookup id2 (activeInsert id k msg m) = alookup id2 m := by
  unfold activeInsert
  cases hm : alookup id m with
  | some inner => exact alookup_aupdate_ne _ _ _ _ hne
  | none =>
      have h2 : alookup id2 [(id, [(k, msg)])] = none := by
        show (if id = id2 then some [(k, msg)] else alookup id2 []) = none
        rw [if_neg (fun hh : id = id2 => hne hh.symm)]
        rfl
      cases hk : alookup id2 m with
      | some inner => rw [alookup_append_some _ _ _ _ hk]
      | none => rw [alookup_append_none _ _ _ hk, h2]

theorem seenCheck_eq_of_stored {msg : SporkMessage} {k : Nat} {st : SporkState}
    {inner : List (Nat × SporkMessage)} {stored : SporkMessage}
    (hid : alookup msg.nSporkID st.mapSporksActive = some inner)
    (hk : alookup k inner = some stored) :
    seenCheck msg k st = decide (msg.nTimeSigned ≤ stored.nTimeSigned) := by
  have h1 : seenCheck msg k st =
      (match alookup k inner with
       | some stored2 => decide (msg.nTimeSigned ≤ stored2.nTimeSigned)
       | none => false) := by
    unfold seenCheck
    rw [hid]
  rw [h1, hk]

theorem processSpork_state_cases (ref : Bool) (now : Int) (msg : SporkMessage)
    (st : SporkState) :
    (processSpork ref now msg st).1 = st ∨
    ∃ k2, msg.vchSig = some k2 ∧ seenCheck msg k2 st = false ∧
      k2 ∈ st.setSporkPubKeyIDs ∧
      (processSpork ref now msg st).1 = installSpork msg k2 st := by
  by_cases hskew : msg.nTimeSigned > now + 2 * 60 * 60
  · left
    have h1 : processSpork ref now msg st =
        (st, { score := if ref then some 100 else none, relayed := false }) := by
      unfold processSpork
      rw [if_pos hskew]
    rw [h1]
  · cases hsig : getSignerKeyID msg with
    | none =>
        left
        have h1 : processSpork ref now msg st =
            (st, { score := if ref then some 100 else none, relayed := false }) := by
          unfold processSpork
          rw [if_neg hskew, hsig]
        rw [h1]
    | some k2 =>
        have h1 : processSpork ref now msg st =
            (if k2 ∈ st.setSporkPubKeyIDs then
              if seenCheck msg k2 st then (st, { score := none, relayed := false })
              else (installSpork msg k2 st, { score := none, relayed := true })
            else (st, { score := if ref then some 100 else none, relayed := false })) := by
          unfold processSpork
          rw [if_neg hskew, hsig]
        by_cases hk : k2 ∈ st.setSporkPubKeyIDs
        · by_cases hseen : seenCheck msg k2 st
          · left
            rw [h1, if_pos hk, if_pos hseen]
          · right
            refine ⟨k2, hsig, by simpa using hseen, hk, ?_⟩
            rw [h1, if_pos hk, if_neg hseen]
        · left
          rw [h1, if_neg hk]

theorem updateSpork_eq {st : SporkState} {kpriv : Nat}
    (hpriv : st.sporkPrivKey = some kpriv) (hk : kpriv ∈ st.setSporkPubKeyIDs)
    (id value now : Int) :
    updateSpork id value now st =
      (true, installSpork
        { nSporkID := id, nValue := value, nTimeSigned := now, vchSig := some kpriv }
        kpriv st) := by
  unfold updateSpork
  rw [hpriv]
  show (if kpriv ∈ st.setSporkPubKeyIDs then
      (true, installSpork
        { nSporkID := id, nValue := value, nTimeSigned := now, vchSig := some kpriv }
        kpriv st)
    else (false, st)) = _
  rw [if_pos hk]

/-- C5 (amended): ProcessSpork replaces the stored message of a
`(sporkID, signer)` pair only by one with strictly greater `nTimeSigned`; an
incoming message whose `nTimeSigned` equals the stored one is treated as a
duplicate and changes nothing, so across ProcessSpork calls the stored
`nTimeSigned` is non-decreasing.  UpdateSpork, however, installs a freshly
signed message carrying the current adjusted time unconditionally, which
can be smaller than the stored `nTimeSigned`. -/
theorem spork_time_monotone_spec (st : SporkState) (ref : Bool) (now : Int)
    (msg : SporkMessage) (id : Int) (k : Nat) :
    (∀ inner stored inner2 m2,
      alookup id st.mapSporksActive = some inner →
      alookup k inner = some stored →
      alookup id (processSpork ref now msg st).1.mapSporksActive = some inner2 →
      alookup k inner2 = some m2 →
      m2 = stored ∨ stored.nTimeSigned < m2.nTimeSigned) ∧
    (∀ inner stored,
      msg.vchSig = some k →
      alookup msg.nSporkID st.mapSporksActive = some inner →
      alookup k inner = some stored →
      stored.nTimeSigned = msg.nTimeSigned →
      (processSpork ref now msg st).1 = st) ∧
    (∀ value kpriv,
      st.sporkPrivKey = some kpriv →
      kpriv ∈ st.setSporkPubKeyIDs →
      (updateSpork id value now st).1 = true ∧
      ∃ inner2, alookup id (updateSpork id value now st).2.mapSporksActive = some inner2 ∧
        alookup kpriv inner2 =
          some { nSporkID := id, nValue := value, nTimeSigned := now,
                 vchSig := some kpriv }) := by
  refine ⟨?_, ?_, ?_⟩
  · intro inner stored inner2 m2 hinner hstored hinner2 hm2
    rcases processSpork_state_cases ref now msg st with hsame | ⟨k2, hsig, hseen, hk2, hinst⟩
    · rw [hsame, hinner] at hinner2
      injection hinner2 with he
      subst he
      rw [hstored] at hm2
      injection hm2 with he2
      exact Or.inl he2.symm
    · rw [hinst] at hinner2
      simp only [installSpork] at hinner2
      by_cases hidm : id = msg.nSporkID
      · subst hidm
        rw [activeInsert_lookup_self_some hinner] at hinner2
        injection hinner2 with he
        subst he
        by_cases hkk : k = k2
        · subst hkk
          rw [alookup_ainsert_self] at hm2
          injection hm2 with he2
          subst he2
          right
          have hs1 := seenCheck_eq_of_stored hinner hstored
          rw [hs1] at hseen
          simp at hseen
          omega
        · rw [alookup_ainsert_ne _ _ _ _ hkk, hstored] at hm2
          injection hm2 with he2
          exact Or.inl he2.symm
      · rw [activeInsert_lookup_ne hidm, hinner] at hinner2
        injection hinner2 with he
        subst he
        rw [hstored] at hm2
        injection hm2 with he2
        exact Or.inl he2.symm
  · intro inner stored hsig hinner hstored heqt
    rcases processSpork_state_cases ref now msg st with hsame | ⟨k2, hsig2, hseen, hk2, hinst⟩
    · exact hsame
    · exfalso
      rw [hsig] at hsig2
      injection hsig2 with he
      subst he
      have hs1 := seenCheck_eq_of_stored hinner hstored
      rw [hs1] at hseen
      simp at hseen
      omega
  · intro value kpriv hpriv hk
    rw [updateSpork_eq hpriv hk]
    refine ⟨rfl, ?_⟩
    show ∃ inner2,
      alookup id (installSpork
        { nSporkID := id, nValue := value, nTimeSigned := now, vchSig := some kpriv }
        kpriv st).mapSporksActive = some inner2 ∧ _
    cases hid : alookup id st.mapSporksActive with
    | some inner =>
        refine ⟨ainsert kpriv
          { nSporkID := id, nValue := value, nTimeSigned := now, vchSig := some kpriv }
          inner, ?_, ?_⟩
        · exact activeInsert_lookup_self_some hid
        · rw [alookup_ainsert_self]
    | none =>
        refine ⟨[(kpriv,
          { nSporkID := id, nValue := value, nTimeSigned := now, vchSig := some kpriv })],
          ?_, ?_⟩
        · exact activeInsert_lookup_self_none hid
        · show (if kpriv = kpriv then _ else _) = _
          rw [if_pos rfl]

/-! ### Concrete spork fixtures -/

def mS5 : SporkMessage :=
  { nSporkID := 1, nValue := 7, nTimeSigned := 100, vchSig := some 5 }

def mS6 : SporkMessage :=
  { nSporkID := 1, nValue := 7, nTimeSigned := 101, vchSig := some 6 }

def mS5n : SporkMessage :=
  { nSporkID := 1, nValue := 8, nTimeSigned := 102, vchSig := some 5 }

def mS5h : SporkMessage :=
  { nSporkID := 1, nValue := 7, nTimeSigned := 10000, vchSig := some 5 }

def mSk : SporkMessage :=
  { nSporkID := 1, nValue := 7, nTimeSigned := 999999, vchSig := some 5 }

def stS1 : SporkState :=
  { mapSporksActive := [(1, [(5, mS5), (6, mS6)])],
    mapSporksByHash := [mS5, mS6],
    setSporkPubKeyIDs := [5, 6, 7],
    nMinSporkKeys := 2,
    sporkPrivKey := none,
    mapSporksCachedValues := [(1, 7)],
    mapSporksCachedActive := [] }

def stS0 : SporkState :=
  { stS1 with mapSporksCachedValues := [] }

def stS2 : SporkState :=
  { mapSporksActive := [(1, [(5, mS5h)])],
    mapSporksByHash := [mS5h],
    setSporkPubKeyIDs := [5],
    nMinSporkKeys := 1,
    sporkPrivKey := some 5,
    mapSporksCachedValues := [],
    mapSporksCachedActive := [] }

theorem spork_value_threshold_spec_witness :
    (1 : Int) ≤ stS0.nMinSporkKeys ∧
    alookup 1 stS0.mapSporksCachedValues = none ∧
    (((sporkValueIsActive 1 stS0).1.isSome ↔
      (∃ inner, alookup 1 stS0.mapSporksActive = some inner ∧
        ∃ v, stS0.nMinSporkKeys ≤ countValueEntries v inner)) ∧
    (∀ v, (sporkValueIsActive 1 stS0).1 = some v →
      (∃ inner, alookup 1 stS0.mapSporksActive = some inner ∧
        stS0.nMinSporkKeys ≤ countValueEntries v inner) ∧
      alookup 1 ((sporkValueIsActive 1 stS0).2).mapSporksCachedValues = some v ∧
      (getSporkValue 1 stS0).1 = v)) :=
  ⟨by decide, by decide, spork_value_threshold_spec stS0 1 (by decide) (by decide)⟩

theorem processSpork_skew_spec_witness :
    mSk.nTimeSigned > 0 + 2 * 60 * 60 ∧
    processSpork true 0 mSk stS1 =
      (stS1, { score := if true then some 100 else none, relayed := false }) :=
  ⟨by decide, processSpork_skew_spec true 0 mSk stS1 (by decide)⟩

theorem spork_time_monotone_spec_witness :
    alookup 1 stS1.mapSporksActive = some [(5, mS5), (6, mS6)] ∧
    alookup 5 [(5, mS5), (6, mS6)] = some mS5 ∧
    alookup 1 (processSpork true 102 mS5n stS1).1.mapSporksActive =
      some [(5, mS5n), (6, mS6)] ∧
    alookup 5 [(5, mS5n), (6, mS6)] = some mS5n ∧
    (mS5n = mS5 ∨ mS5.nTimeSigned < mS5n.nTimeSigned) :=
  ⟨by decide, by decide, by decide, by decide,
    (spork_time_monotone_spec stS1 true 102 mS5n 1 5).1 [(5, mS5), (6, mS6)] mS5
      [(5, mS5n), (6, mS6)] mS5n (by decide) (by decide) (by decide) (by decide)⟩

/-- Counterexample to the unamended C5: UpdateSpork installs a freshly
signed message carrying the current adjusted time (here 100) even though
the stored message for the same `(sporkID, signer)` pair has a strictly
larger `nTimeSigned` (here 10000), so `timeSigned` is not non-decreasing
across stored values. -/
theorem spork_update_monotone_cex :
    alookup 5 ((alookup 1 stS2.mapSporksActive).getD []) = some mS5h ∧
    (updateSpork 1 9 100 stS2).1 = true ∧
    alookup 5 ((alookup 1 (updateSpork 1 9 100 stS2).2.mapSporksActive).getD []) =
      some { nSporkID := 1, nValue := 9, nTimeSigned := 100, vchSig := some 5 } ∧
    (100 : Int) < mS5h.nTimeSigned := by
  decide

/-! ### The cached-value coherence invariant (C3) -/

theorem mem_ainsert {α β : Type} [DecidableEq α] {k : α} {v : β} {q : α × β}
    {m : List (α × β)} (h : q ∈ ainsert k v m) : q = (k, v) ∨ q ∈ m := by
  unfold ainsert at h
  cases hm : alookup k m with
  | some w =>
      rw [hm] at h
      exact mem_aupdate h
  | none =>
      rw [hm] at h
      rcases List.mem_append.mp h with h1 | h1
      · exact Or.inr h1
      · exact Or.inl (List.mem_singleton.mp h1)

theorem ainsert_ne_nil {α β : Type} [DecidableEq α] {k : α} {v : β}
    {m : List (α × β)} : ainsert k v m ≠ [] := by
  unfold ainsert
  cases hm : alookup k m with
  | some w =>
      intro hc
      have h2 : m.map (fun p => if p.1 = k then (k, v) else p) = [] := hc
      have hmem := alookup_some_mem hm
      rw [List.map_eq_nil_iff] at h2
      rw [h2] at hmem
      cases hmem
  | none =>
      intro hc
      have h2 : m ++ [(k, v)] = [] := hc
      simp at h2

theorem mem_activeInsert {id : Int} {k : Nat} {msg : SporkMessage}
    {m : List (Int × List (Nat × SporkMessage))} {q : Int × List (Nat × SporkMessage)}
    (h : q ∈ activeInsert id k msg m) :
    q ∈ m ∨ (∃ inner, alookup id m = some inner ∧ q = (id, ainsert k msg inner)) ∨
    (alookup id m = none ∧ q = (id, [(k, msg)])) := by
  unfold activeInsert at h
  cases hm : alookup id m with
  | some inner =>
      rw [hm] at h
      rcases mem_aupdate h with he | he
      · exact Or.inr (Or.inl ⟨inner, rfl, he⟩)
      · exact Or.inl he
  | none =>
      rw [hm] at h
      rcases List.mem_append.mp h with h1 | h1
      · exact Or.inl h1
      · exact Or.inr (Or.inr ⟨rfl, List.mem_singleton.mp h1⟩)

/-- The coherence condition C3 states for one `mapSporksCachedValues`
entry: the spork id is live in `mapSporksActive` and the cached value has
at least `nMinSporkKeys` signer entries there. -/
def cacheEntryOK (st : SporkState) (p : Int × Int) : Bool :=
  match alookup p.1 st.mapSporksActive with
  | some inner => decide (st.nMinSporkKeys ≤ countValueEntries p.2 inner)
  | none => false

theorem cacheEntryOK_eq_some (st : SporkState) (p : Int × Int)
    {inner : List (Nat × SporkMessage)}
    (h : alookup p.1 st.mapSporksActive = some inner) :
    cacheEntryOK st p = decide (st.nMinSporkKeys ≤ countValueEntries p.2 inner) := by
  unfold cacheEntryOK
  rw [h]

/-- The C3 claim property: every cached spork value meets the signer
threshold among the stored messages for its id. -/
abbrev CacheCoherent (st : SporkState) : Prop :=
  ∀ p ∈ st.mapSporksCachedValues, cacheEntryOK st p = true

/-- The spork-manager invariant: per-id signer maps are nonempty, every
stored message carries a valid signature of a currently authorised signer
and its own spork id, and the value cache is coherent.  It holds in every
state reachable from a fresh manager. -/
abbrev SporkInv (st : SporkState) : Prop :=
  (∀ q ∈ st.mapSporksActive, q.2 ≠ []) ∧
  (∀ q ∈ st.mapSporksActive, ∀ p ∈ q.2,
    p.2.vchSig = some p.1 ∧ p.1 ∈ st.setSporkPubKeyIDs ∧ p.2.nSporkID = q.1) ∧
  CacheCoherent st

theorem installSpork_inv {st : SporkState} {msg : SporkMessage} {k : Nat}
    (hsig : msg.vchSig = some k) (hk : k ∈ st.setSporkPubKeyIDs)
    (h : SporkInv st) : SporkInv (installSpork msg k st) := by
  obtain ⟨hne, hstored, hcache⟩ := h
  refine ⟨?_, ?_, ?_⟩
  · intro q hq
    simp only [installSpork] at hq
    rcases mem_activeInsert hq with h1 | ⟨inner, hlk, he⟩ | ⟨hlk, he⟩
    · exact hne q h1
    · rw [he]
      exact ainsert_ne_nil
    · rw [he]
      simp
  · intro q hq p hp
    simp only [installSpork] at hq ⊢
    rcases mem_activeInsert hq with h1 | ⟨inner, hlk, he⟩ | ⟨hlk, he⟩
    · exact hstored q h1 p hp
    · subst he
      rcases mem_ainsert hp with he2 | he2
      · subst he2
        exact ⟨hsig, hk, rfl⟩
      · exact hstored _ (alookup_some_mem hlk) p he2
    · subst he
      have he2 := List.mem_singleton.mp hp
      subst he2
      exact ⟨hsig, hk, rfl⟩
  · intro p hp
    simp only [installSpork] at hp ⊢
    obtain ⟨hpm, hpne⟩ := mem_aerase.mp hp
    have hold := hcache p hpm
    have hcong : alookup p.1 (activeInsert msg.nSporkID k msg st.mapSporksActive) =
        alookup p.1 st.mapSporksActive := activeInsert_lookup_ne hpne
    unfold cacheEntryOK
    rw [hcong]
    have hold2 : (match alookup p.1 st.mapSporksActive with
        | some inner => decide (st.nMinSporkKeys ≤ countValueEntries p.2 inner)
        | none => false) = true := hold
    exact hold2

theorem processSpork_inv (ref : Bool) (now : Int) (msg : SporkMessage)
    (st : SporkState) (h : SporkInv st) : SporkInv (processSpork ref now msg st).1 := by
  rcases processSpork_state_cases ref now msg st with hsame | ⟨k2, hsig, -, hk2, hinst⟩
  · rw [hsame]
    exact h
  · rw [hinst]
    exact installSpork_inv hsig hk2 h

theorem updateSpork_inv (id value now : Int) (st : SporkState)
    (h : SporkInv st) : SporkInv (updateSpork id value now st).2 := by
  cases hpriv : st.sporkPrivKey with
  | none =>
      have h1 : updateSpork id value now st = (false, st) := by
        unfold updateSpork
        rw [hpriv]
      rw [h1]
      exact h
  | some kpriv =>
      by_cases hk : kpriv ∈ st.setSporkPubKeyIDs
      · rw [updateSpork_eq hpriv hk]
        exact installSpork_inv rfl hk h
      · have h1 : updateSpork id value now st = (false, st) := by
          unfold updateSpork
          rw [hpriv]
          show (if kpriv ∈ st.setSporkPubKeyIDs then
              (true, installSpork
                { nSporkID := id, nValue := value, nTimeSigned := now, vchSig := some kpriv }
                kpriv st)
            else (false, st)) = (false, st)
          rw [if_neg hk]
        rw [h1]
        exact h

theorem checkAndRemove_inv (st : SporkState) (h : SporkInv st) :
    SporkInv ((checkAndRemove st).getD st) := by
  by_cases hnil : st.setSporkPubKeyIDs = []
  · unfold checkAndRemove
    rw [if_pos hnil]
    exact h
  · obtain ⟨hinner_ne, hstored, hcache⟩ := h
    have hkeep : ∀ q ∈ st.mapSporksActive, ∀ p ∈ q.2,
        keepSporkEntry st.setSporkPubKeyIDs p = true := by
      intro q hq p hp
      obtain ⟨hsig, hauth, -⟩ := hstored q hq p hp
      simp [keepSporkEntry, checkSignature, hsig, hauth]
    have hmap : st.mapSporksActive.map
        (fun q => (q.1, q.2.filter (keepSporkEntry st.setSporkPubKeyIDs))) =
        st.mapSporksActive := by
      have h1 : ∀ q ∈ st.mapSporksActive,
          (fun q => (q.1, q.2.filter (keepSporkEntry st.setSporkPubKeyIDs))) q = id q := by
        intro q hq
        show (q.1, q.2.filter (keepSporkEntry st.setSporkPubKeyIDs)) = q
        rw [List.filter_eq_self.mpr (hkeep q hq)]
      rw [List.map_congr_left h1, List.map_id]
    have hfil : st.mapSporksActive.filter (fun q => !q.2.isEmpty) = st.mapSporksActive := by
      apply List.filter_eq_self.mpr
      intro q hq
      have hq2 := hinner_ne q hq
      cases hc : q.2 with
      | nil => exact absurd hc hq2
      | cons a as => rfl
    unfold checkAndRemove
    rw [if_neg hnil, hmap, hfil]
    refine ⟨?_, ?_, ?_⟩
    · intro q hq
      exact hinner_ne q hq
    · intro q hq p hp
      exact hstored q hq p hp
    · intro p hp
      exact hcache p hp

theorem setSporkAddress_inv (keyID : Option Nat) (st : SporkState)
    (h : SporkInv st) : SporkInv (setSporkAddress keyID st).2 := by
  cases keyID with
  | none => exact h
  | some k =>
      obtain ⟨h1, h2, h3⟩ := h
      refine ⟨?_, ?_, ?_⟩
      · intro q hq
        exact h1 q hq
      · intro q hq p hp
        obtain ⟨ha, hb, hc⟩ := h2 q hq p hp
        exact ⟨ha, mem_insertSet.mpr (Or.inl hb), hc⟩
      · intro p hp
        exact h3 p hp

theorem setPrivKey_inv (keyID : Option Nat) (st : SporkState)
    (h : SporkInv st) : SporkInv (setPrivKey keyID st).2 := by
  cases keyID with
  | none => exact h
  | some k =>
      by_cases hk : k ∈ st.setSporkPubKeyIDs
      · have h1 : setPrivKey (some k) st = (true, { st with sporkPrivKey := some k }) := by
          unfold setPrivKey
          show (if k ∈ st.setSporkPubKeyIDs then (true, { st with sporkPrivKey := some k })
            else (false, st)) = (true, { st with sporkPrivKey := some k })
          rw [if_pos hk]
        rw [h1]
        exact h
      · have h1 : setPrivKey (some k) st = (false, st) := by
          unfold setPrivKey
          show (if k ∈ st.setSporkPubKeyIDs then (true, { st with sporkPrivKey := some k })
            else (false, st)) = (false, st)
          rw [if_neg hk]
        rw [h1]
        exact h

theorem countResult_inv (id : Int) (inner : List (Nat × SporkMessage))
    (st : SporkState) (hid : alookup id st.mapSporksActive = some inner)
    (h : SporkInv st) : SporkInv (countResult id inner st).2 := by
  obtain ⟨h1, h2, h3⟩ := h
  cases hcl : countLoop st.nMinSporkKeys inner [] with
  | none =>
      have he : countResult id inner st = (none, st) := by
        unfold countResult
        rw [hcl]
      rw [he]
      exact ⟨h1, h2, h3⟩
  | some v =>
      have he : countResult id inner st =
          (some v, { st with mapSporksCachedValues := ainsert id v st.mapSporksCachedValues }) := by
        unfold countResult
        rw [hcl]
      rw [he]
      refine ⟨?_, ?_, ?_⟩
      · intro q hq
        exact h1 q hq
      · intro q hq p hp
        exact h2 q hq p hp
      · intro p hp
        rcases mem_ainsert hp with he2 | he2
        · subst he2
          have hcount := countLoop_sound st.nMinSporkKeys inner [] v hcl
          have hz : countOf v ([] : List (Int × Int)) = 0 := rfl
          have hcount2 : st.nMinSporkKeys ≤ countValueEntries v inner := by omega
          rw [cacheEntryOK_eq_some
            { st with mapSporksCachedValues := ainsert id v st.mapSporksCachedValues }
            (id, v) hid]
          exact decide_eq_true hcount2
        · exact h3 p he2

theorem svia_inv (id : Int) (st : SporkState) (h : SporkInv st) :
    SporkInv (sporkValueIsActive id st).2 := by
  cases hid : alookup id st.mapSporksActive with
  | none =>
      rw [svia_eq_noactive hid]
      exact h
  | some inner =>
      cases hc : alookup id st.mapSporksCachedValues with
      | some v =>
          rw [svia_eq_cached hid hc]
          exact h
      | none =>
          rw [svia_eq_uncached hid hc]
          exact countResult_inv id inner st hid h

theorem getSporkValue_state (id : Int) (st : SporkState) :
    (getSporkValue id st).2 = (sporkValueIsActive id st).2 := by
  unfold getSporkValue
  cases hs : sporkValueIsActive id st with
  | mk a b =>
      cases a with
      | some v => rfl
      | none =>
          cases alookup id sporkDefs with
          | some d => rfl
          | none => rfl

theorem getSporkValue_inv (id : Int) (st : SporkState) (h : SporkInv st) :
    SporkInv (getSporkValue id st).2 := by
  rw [getSporkValue_state]
  exact svia_inv id st h

theorem cachedActive_set_inv (st : SporkState) (x : List (Int × Bool))
    (h : SporkInv st) : SporkInv { st with mapSporksCachedActive := x } := by
  obtain ⟨h1, h2, h3⟩ := h
  exact ⟨h1, h2, h3⟩

def withCachedTrue (id : Int) (st2 : SporkState) : SporkState :=
  { st2 with mapSporksCachedActive := ainsert id true st2.mapSporksCachedActive }

theorem isSporkActive_inv (id : Int) (now : Int) (st : SporkState)
    (h : SporkInv st) : SporkInv (isSporkActive id now st).2 := by
  have hg := getSporkValue_inv id st h
  unfold isSporkActive
  cases hca : alookup id st.mapSporksCachedActive with
  | some b =>
      cases b
      · show SporkInv (if (getSporkValue id st).1 < now then
            (true, withCachedTrue id (getSporkValue id st).2)
          else (false, (getSporkValue id st).2)).2
        by_cases hlt : (getSporkValue id st).1 < now
        · rw [if_pos hlt]
          exact cachedActive_set_inv _ _ hg
        · rw [if_neg hlt]
          exact hg
      · exact h
  | none =>
      show SporkInv (if (getSporkValue id st).1 < now then
          (true, withCachedTrue id (getSporkValue id st).2)
        else (false, (getSporkValue id st).2)).2
      by_cases hlt : (getSporkValue id st).1 < now
      · rw [if_pos hlt]
        exact cachedActive_set_inv _ _ hg
      · rw [if_neg hlt]
        exact hg

/-- The public CSporkManager operations (those that touch or read the
spork maps). -/
inductive SporkOp where
  | process (ref : Bool) (now : Int) (msg : SporkMessage)
  | update (id value now : Int)
  | checkRemove
  | clearAll
  | setAddress (keyID : Option Nat)
  | setMinKeys (n : Int)
  | setKey (keyID : Option Nat)
  | queryValue (id : Int)
  | queryActive (id : Int) (now : Int)
deriving DecidableEq

def applySporkOp (st : SporkState) : SporkOp → SporkState
  | .process ref now msg => (processSpork ref now msg st).1
  | .update id value now => (updateSpork id value now st).2
  | .checkRemove => (checkAndRemove st).getD st
  | .clearAll => clear st
  | .setAddress k => (setSporkAddress k st).2
  | .setMinKeys n => (setMinSporkKeys n st).2
  | .setKey k => (setPrivKey k st).2
  | .queryValue id => (getSporkValue id st).2
  | .queryActive id now => (isSporkActive id now st).2

/-- The operations that do not invalidate the value cache wholesale:
everything except Clear (which empties the spork maps but not the caches)
and SetMinSporkKeys (which changes the threshold under the caches). -/
def opKeepsCaches : SporkOp → Bool
  | .clearAll => false
  | .setMinKeys _ => false
  | _ => true

def runSporkOps (st : SporkState) (ops : List SporkOp) : SporkState :=
  ops.foldl applySporkOp st

theorem applySporkOp_inv (st : SporkState) (o : SporkOp)
    (hop : opKeepsCaches o = true) (h : SporkInv st) :
    SporkInv (applySporkOp st o) := by
  cases o with
  | process ref now msg => exact processSpork_inv ref now msg st h
  | update id value now => exact updateSpork_inv id value now st h
  | checkRemove => exact checkAndRemove_inv st h
  | clearAll => simp [opKeepsCaches] at hop
  | setAddress k => exact setSporkAddress_inv k st h
  | setMinKeys n => simp [opKeepsCaches] at hop
  | setKey k => exact setPrivKey_inv k st h
  | queryValue id => exact getSporkValue_inv id st h
  | queryActive id now => exact isSporkActive_inv id now st h

/-- C3 (amended): the cached-value coherence condition — every
`mapSporksCachedValues` entry names a spork id whose active signer map
gives the cached value at least `nMinSporkKeys` supporting entries — is an
invariant of every public operation EXCEPT Clear and SetMinSporkKeys,
provided stored messages carry valid signatures of authorised signers (as
in every reachable state).  Clear empties the spork maps but not the
caches, and SetMinSporkKeys moves the threshold under the caches, so both
can break the condition. -/
theorem spork_cache_invariant (st : SporkState) (ops : List SporkOp)
    (hops : ∀ o ∈ ops, opKeepsCaches o = true) (h : SporkInv st) :
    SporkInv (runSporkOps st ops) := by
  induction ops generalizing st with
  | nil => exact h
  | cons o rest ih =>
      have h1 := applySporkOp_inv st o (hops o (List.mem_cons_self o rest)) h
      have h2 : runSporkOps st (o :: rest) = runSporkOps (applySporkOp st o) rest := rfl
      rw [h2]
      exact ih (applySporkOp st o) (fun o2 ho2 => hops o2 (List.mem_cons_of_mem o ho2)) h1

/-- Counterexample to the unamended C3: from a coherent state, the public
operations Clear and SetMinSporkKeys leave a cached value behind that no
longer meets the threshold in the active map. -/
theorem spork_cache_invariant_cex :
    SporkInv stS1 ∧
    opKeepsCaches SporkOp.clearAll = false ∧
    opKeepsCaches (SporkOp.setMinKeys 3) = false ∧
    (setMinSporkKeys 3 stS1).1 = true ∧
    ¬ CacheCoherent (applySporkOp stS1 SporkOp.clearAll) ∧
    ¬ CacheCoherent (applySporkOp stS1 (SporkOp.setMinKeys 3)) := by
  decide

theorem spork_cache_invariant_witness :
    (∀ o ∈ [SporkOp.process true 102 mS5n, SporkOp.checkRemove, SporkOp.queryValue 1],
      opKeepsCaches o = true) ∧
    SporkInv stS1 ∧
    SporkInv (runSporkOps stS1
      [SporkOp.process true 102 mS5n, SporkOp.checkRemove, SporkOp.queryValue 1]) :=
  ⟨by decide, by decide,
    spork_cache_invariant stS1
      [SporkOp.process true 102 mS5n, SporkOp.checkRemove, SporkOp.queryValue 1]
      (by decide) (by decide)⟩
